import Mathlib

/-!
# Verification of the DV / LS routing engines

Shallow embedding of `src/dv_router.py` (distance-vector routing) and
`src/ls_router.py` (link-state routing with Dijkstra).

Python dictionaries are embedded as association lists over `Int` keys with
first-occurrence lookup and in-place update (replace the first binding of a
key, otherwise append), which matches dictionary semantics whenever the key
list has no duplicates; real Python dictionaries never have duplicate keys,
so theorems take `Nodup` hypotheses on key lists where needed.

A Python `KeyError` (or a failed `assert`) is embedded as the `error` branch
of an `Except`; the error payload of the DV functions carries the state of
the router object at the moment the exception propagates, since the partial
mutations performed before the raise survive on the Python object.
-/

/-- First-occurrence lookup in an association list, the embedding of `d[k]`
read access / `k in d` membership tests on a Python dict. -/
def alookup {α : Type} : List (Int × α) → Int → Option α
  | [], _ => none
  | (k, v) :: rest, d => if k = d then some v else alookup rest d

/-- Dictionary assignment `d[k] = v`: replace the first binding of `k`,
otherwise append a new binding at the end (Python insertion order). -/
def aset {α : Type} (k : Int) (v : α) : List (Int × α) → List (Int × α)
  | [] => [(k, v)]
  | (k1, v1) :: rest => if k1 = k then (k, v) :: rest else (k1, v1) :: aset k v rest

/-- The key list of a dictionary, the embedding of `d.keys()` iteration. -/
def akeys {α : Type} (d : List (Int × α)) : List Int := d.map Prod.fst

namespace DV


/-- The per-router mutable state of `DVRouter` (`src/dv_router.py`):
the distance vector `dv` (absence of a key means infinity), the forwarding
table, and the change flag. `links` and `router_id` are read-only fields of
the substrate and are passed as parameters. -/
structure DVState where
  dv : List (Int × Int)
  fwd_table : List (Int × Int)
  dv_change : Bool
deriving DecidableEq, Repr

/-- One iteration of loop (1) of `process_advertisement`
(`src/dv_router.py` lines 50-58) at destination `dest` drawn from
`self.dv.keys()`: if `dest` is also in `dv_adv`, compute
`new_cost = links[adv_router] + dv_adv[dest]` (raising `KeyError` if
`adv_router` is not a key of `links`) and relax. The unreachable
`alookup s.dv dest = none` branch returns `s` (the loop only visits keys of
`s.dv`). -/
def relaxStep (links dv_adv : List (Int × Int)) (adv_router dest : Int)
    (s : DVState) : Except DVState DVState :=
  match alookup dv_adv dest with
  | none => .ok s
  | some a =>
    match alookup links adv_router with
    | none => .error s
    | some l =>
      match alookup s.dv dest with
      | none => .ok s
      | some c =>
        if l + a < c then
          .ok { dv := aset dest (l + a) s.dv,
                fwd_table := aset dest adv_router s.fwd_table,
                dv_change := true }
        else .ok s

/-- Loop (1) of `process_advertisement`: fold `relaxStep` over the key list
of the local distance vector. -/
def relaxLoop (links dv_adv : List (Int × Int)) (adv_router : Int) :
    List Int → DVState → Except DVState DVState
  | [], s => .ok s
  | d :: rest, s =>
    match relaxStep links dv_adv adv_router d s with
    | .error e => .error e
    | .ok s1 => relaxLoop links dv_adv adv_router rest s1

/-- One iteration of loop (2) of `process_advertisement`
(`src/dv_router.py` lines 62-71) at destination `dest` drawn from
`dv_adv.keys()`: if `dest` is absent from the local vector, adopt
`links[adv_router] + dv_adv[dest]` (raising `KeyError` if `adv_router` is
not a key of `links`). The unreachable `alookup dv_adv dest = none` branch
returns `s` (the loop only visits keys of `dv_adv`). -/
def addStep (links dv_adv : List (Int × Int)) (adv_router dest : Int)
    (s : DVState) : Except DVState DVState :=
  match alookup s.dv dest with
  | some _ => .ok s
  | none =>
    match alookup links adv_router with
    | none => .error s
    | some l =>
      match alookup dv_adv dest with
      | none => .ok s
      | some a =>
        .ok { dv := aset dest (l + a) s.dv,
              fwd_table := aset dest adv_router s.fwd_table,
              dv_change := true }

/-- Loop (2) of `process_advertisement`: fold `addStep` over the key list of
the received advertisement. -/
def addLoop (links dv_adv : List (Int × Int)) (adv_router : Int) :
    List Int → DVState → Except DVState DVState
  | [], s => .ok s
  | d :: rest, s =>
    match addStep links dv_adv adv_router d s with
    | .error e => .error e
    | .ok s1 => addLoop links dv_adv adv_router rest s1

/-- `DVRouter.process_advertisement(dv_adv, adv_router)`
(`src/dv_router.py` lines 45-71): reset `dv_change` to `False`, run loop (1)
over the local keys, then loop (2) over the advertised keys. -/
def process_advertisement (links dv_adv : List (Int × Int)) (adv_router : Int)
    (s : DVState) : Except DVState DVState :=
  let s0 : DVState := { s with dv_change := false }
  match relaxLoop links dv_adv adv_router (akeys s0.dv) s0 with
  | .error e => .error e
  | .ok s1 => addLoop links dv_adv adv_router (akeys dv_adv) s1

/-- `DVRouter.initialize_algorithm` (`src/dv_router.py` lines 20-28):
for every neighbor `n`, `dv[n] = links[n]` and `fwd_table[n] = n`; then
`dv[router_id] = 0` and `fwd_table[router_id] = router_id`. The change flag
is `True` from `__init__`. -/
def initialize_algorithm (links : List (Int × Int)) (router_id : Int) : DVState :=
  let s1 := links.foldl
    (fun (s : DVState) (p : Int × Int) =>
      { s with dv := aset p.1 p.2 s.dv, fwd_table := aset p.1 p.1 s.fwd_table })
    { dv := [], fwd_table := [], dv_change := true }
  { s1 with dv := aset router_id 0 s1.dv,
            fwd_table := aset router_id router_id s1.fwd_table }

/-- `DVRouter.run_one_tick` (`src/dv_router.py` lines 30-36): if the change
flag is set, advertise the whole current vector to every neighbor (the
advertised vector is returned as the second component); then the flag is
cleared unconditionally. -/
def run_one_tick (s : DVState) : DVState × Option (List (Int × Int)) :=
  if s.dv_change then ({ s with dv_change := false }, some s.dv)
  else ({ s with dv_change := false }, none)

/-- The router state after a call, whether it returned normally or raised:
a raised `KeyError` propagates but the object keeps its state. -/
def exceptState (r : Except DVState DVState) : DVState :=
  match r with
  | .ok s => s
  | .error s => s

/-- Pointwise comparison of distance vectors, an absent key meaning
infinity: `dvLE a b` holds when every destination recorded in `b` is also
recorded in `a` with a cost that is less than or equal. -/
def dvLE (a b : List (Int × Int)) : Prop :=
  ∀ d c, alookup b d = some c → ∃ c2, alookup a d = some c2 ∧ c2 ≤ c

/-- The invariant of claim C6: the router's entry for itself is distance 0
with itself as next hop. -/
def selfEntryOK (router_id : Int) (t : DVState) : Prop :=
  alookup t.dv router_id = some 0 ∧ alookup t.fwd_table router_id = some router_id

/-- `Changed old new d`: destination `d` was genuinely updated relative to
`old` — either it was adopted (absent before, present now) or its recorded
cost strictly decreased.  Every mutation `process_advertisement` performs is
of one of these two shapes. -/
def Changed (old new : List (Int × Int)) (d : Int) : Prop :=
  (alookup old d = none ∧ (alookup new d).isSome = true) ∨
  (∃ c c2, alookup old d = some c ∧ alookup new d = some c2 ∧ c2 < c)

/-- The invariant threaded through both loops of `process_advertisement` for
claim C3: the change flag is set exactly when some destination was updated,
and every destination is either untouched or genuinely changed. -/
def C3Inv (old t : DVState) : Prop :=
  (t.dv_change = false → t = old) ∧
  (t.dv_change = true → ∃ d, Changed old.dv t.dv d) ∧
  (∀ d, alookup t.dv d = alookup old.dv d ∨ Changed old.dv t.dv d)

end DV

namespace LS


/-- `BROADCAST_INTERVAL` from `src/ls_router.py`. -/
def BROADCAST_INTERVAL : Nat := 1000

/-- Strict comparison on distances where `none` embeds Python's
`float('inf')`: `inf < x` is false for every `x`, and `x < inf` is true for
finite `x`. -/
def oLt : Option Int → Option Int → Bool
  | some a, some b => decide (a < b)
  | some _, none => true
  | none, _ => false

/-- `distances[u] + cost` where `distances[u]` may be infinite. -/
def oAdd : Option Int → Int → Option Int
  | some a, c => some (a + c)
  | none, _ => none

/-- The local state of the main loop of `LSRouter.dijkstras_algorithm`
(`src/ls_router.py`): the `not_visited` set (as a duplicate-free list), the
tentative distances (`none` = `float('inf')`; initialized on all keys of
`lsa_dict` and never read elsewhere) and the predecessor map (`-1` = no
predecessor, its initialization value). -/
structure DState where
  notVisited : List Int
  dist : Int → Option Int
  prev : Int → Int

/-- The minimum-selection loop of `dijkstras_algorithm`: scan `not_visited`
keeping the smallest strict improvement over the running minimum
(initially `min_distance = inf`, `min_router = None`). Returns the final
`min_router`. -/
def findMinAux (dist : Int → Option Int) :
    List Int → Option Int → Option Int → Option Int
  | [], _, mr => mr
  | r :: rest, md, mr =>
    if oLt (dist r) md then findMinAux dist rest (dist r) (some r)
    else findMinAux dist rest md mr

/-- The relaxation loop over `self.lsa_dict[min_router].items()`: for every
neighbor still in `not_visited`, if `distances[min_router] + cost` beats
`distances[neighbor]`, update distance and predecessor. -/
def relaxNeighbors (u : Int) (nv : List Int) :
    List (Int × Int) → (Int → Option Int) → (Int → Int) →
    (Int → Option Int) × (Int → Int)
  | [], dist, prev => (dist, prev)
  | (v, cost) :: rest, dist, prev =>
    if v ∈ nv then
      if oLt (oAdd (dist u) cost) (dist v) then
        relaxNeighbors u nv rest (Function.update dist v (oAdd (dist u) cost))
          (Function.update prev v u)
      else relaxNeighbors u nv rest dist prev
    else relaxNeighbors u nv rest dist prev

/-- The failure modes of the embedded `dijkstras_algorithm`.
`noneMin` is the `KeyError` raised by `not_visited.remove(min_router)` when
no unvisited node has finite distance and `min_router` is still `None`;
`nextHopFail` is a failed assertion inside `next_hop`; `outOfFuel` is the
fuel bound of the embedding, proved unreachable for the loop. -/
inductive DijErr where
  | noneMin
  | outOfFuel
  | nextHopFail
deriving DecidableEq, Repr

/-- One iteration of the `while not_visited:` loop: select the minimum
unvisited router (erroring like `not_visited.remove(None)` when none has a
finite distance), remove it, and relax its outgoing edges. -/
def dijkstraStep (lsa : List (Int × List (Int × Int))) (s : DState) :
    Except DijErr DState :=
  match findMinAux s.dist s.notVisited none none with
  | none => .error .noneMin
  | some u =>
    .ok ⟨s.notVisited.erase u,
      (relaxNeighbors u (s.notVisited.erase u)
        ((alookup lsa u).getD []) s.dist s.prev).1,
      (relaxNeighbors u (s.notVisited.erase u)
        ((alookup lsa u).getD []) s.dist s.prev).2⟩

/-- The `while not_visited:` loop, fuelled; each iteration removes one
member of `not_visited`, so fuel `notVisited.length` always suffices. -/
def dijkstraLoop (lsa : List (Int × List (Int × Int))) :
    Nat → DState → Except DijErr DState
  | 0, s => if s.notVisited.isEmpty then .ok s else .error .outOfFuel
  | fuel + 1, s =>
    if s.notVisited.isEmpty then .ok s
    else
      match dijkstraStep lsa s with
      | .error e => .error e
      | .ok s1 => dijkstraLoop lsa fuel s1

/-- The initialization of `dijkstras_algorithm`: `not_visited` holds every
key of `lsa_dict`, every distance is infinite except `distances[self] = 0`,
and every predecessor is `-1`. -/
def initDState (lsa : List (Int × List (Int × Int))) (selfId : Int) : DState :=
  { notVisited := akeys lsa
    dist := fun r => if r = selfId then some 0 else none
    prev := fun _ => -1 }

/-- The main loop of `dijkstras_algorithm` run to completion from the
initial state, before the forwarding-table population. -/
def dijkstra_core (lsa : List (Int × List (Int × Int))) (selfId : Int) :
    Except DijErr DState :=
  dijkstraLoop lsa (akeys lsa).length (initDState lsa selfId)

/-- Result of a `next_hop` call: a returned next hop, a failed assertion, or
fuel exhaustion (embedding nontermination of the unbounded recursion). -/
inductive NHResult where
  | hop (n : Int)
  | assertFail
  | outOfFuel
deriving DecidableEq, Repr

/-- `LSRouter.next_hop(dst, prev)` (`src/ls_router.py` lines 139-148):
assert `prev[dst] != -1`, assert `self.router_id != dst`, then walk one step
up the predecessor chain, returning `dst` when its predecessor is self. -/
def next_hop (selfId : Int) (prev : Int → Int) : Nat → Int → NHResult
  | 0, _ => .outOfFuel
  | fuel + 1, dst =>
    if prev dst = -1 then .assertFail
    else if selfId = dst then .assertFail
    else if prev dst = selfId then .hop dst
    else next_hop selfId prev fuel (prev dst)

/-- The forwarding-table population loop at the end of
`dijkstras_algorithm`: for every `router` in `lsa_dict` other than self
with `prev[router] != -1`, set `fwd_table[router] = next_hop(router, prev)`
(reading the stray second bracket of `prev[router]]` in the source as the
evident `prev[router] != -1`). An assertion failure inside `next_hop`
aborts the computation. -/
def buildFwd (selfId : Int) (prev : Int → Int) (fuel : Nat) :
    List Int → List (Int × Int) → Except DijErr (List (Int × Int))
  | [], fwd => .ok fwd
  | r :: rest, fwd =>
    if r ≠ selfId ∧ prev r ≠ -1 then
      match next_hop selfId prev fuel r with
      | .hop n => buildFwd selfId prev fuel rest (aset r n fwd)
      | _ => .error .nextHopFail
    else buildFwd selfId prev fuel rest fwd

/-- The per-router state of `LSRouter` (`src/ls_router.py`): the LSA table,
the per-originator broadcasted flags, the two phase markers, and the
forwarding table. -/
structure LSState where
  lsa_dict : List (Int × List (Int × Int))
  broadcasted : List (Int × Bool)
  broadcast_complete : Bool
  routes_computed : Bool
  fwd_table : List (Int × Int)
deriving DecidableEq, Repr

/-- `LSRouter.dijkstras_algorithm` as a state transformer: run the main
loop, then populate the forwarding table from the predecessor map, then set
`routes_computed = True`. The `next_hop` fuel `|keys| + 1` dominates every
terminating predecessor walk (chains visit distinct routers). -/
def dijkstras_algorithm (selfId : Int) (s : LSState) : Except DijErr LSState :=
  match dijkstra_core s.lsa_dict selfId with
  | .error e => .error e
  | .ok d =>
    match buildFwd selfId d.prev ((akeys s.lsa_dict).length + 1)
        (akeys s.lsa_dict) s.fwd_table with
    | .error e => .error e
    | .ok fwd => .ok { s with fwd_table := fwd, routes_computed := true }

/-- Observable actions of an LS router during one tick: flooding the LSA of
a given originator to all neighbors, or invoking `dijkstras_algorithm`. -/
inductive LSOut where
  | flood (originator : Int)
  | dijk
deriving DecidableEq, Repr

/-- The flooding loop of `run_one_tick` (`src/ls_router.py` lines 50-58):
for every `(router, ad)` held in `lsa_dict`, if that originator is not yet
marked broadcasted, send its ad to every neighbor (recorded as a
`flood router` action) and mark it broadcasted. -/
def floodPass : List (Int × List (Int × Int)) → List (Int × Bool) →
    List LSOut × List (Int × Bool)
  | [], b => ([], b)
  | (r, _) :: rest, b =>
    if alookup b r = some true then floodPass rest b
    else
      let res := floodPass rest (aset r true b)
      (.flood r :: res.1, res.2)

/-- `LSRouter.run_one_tick` (`src/ls_router.py` lines 38-62): if the clock
reached `BROADCAST_INTERVAL` and routes are not yet computed, set
`broadcast_complete`, run Dijkstra (an uncaught exception kills the router:
result `none`) and set `routes_computed`; if the clock is below the
interval, flood every not-yet-broadcasted LSA; otherwise do nothing. -/
def run_one_tick (selfId : Int) (clock : Nat) (s : LSState) :
    List LSOut × Option LSState :=
  if BROADCAST_INTERVAL ≤ clock ∧ s.routes_computed = false then
    match dijkstras_algorithm selfId { s with broadcast_complete := true } with
    | .error _ => ([.dijk], none)
    | .ok s1 => ([.dijk], some { s1 with routes_computed := true })
  else if clock < BROADCAST_INTERVAL then
    let res := floodPass s.lsa_dict s.broadcasted
    (res.1, some { s with broadcasted := res.2 })
  else ([], some s)

/-- An event observed by one LS router: one of its own ticks, or the
delivery of an LSA by a neighbor calling `send(self, lsa, originator)`,
which writes `lsa_dict[originator] = lsa` unconditionally. -/
inductive LSEvent where
  | tick (clock : Nat)
  | recv (originator : Int) (lsa : List (Int × Int))
deriving DecidableEq, Repr

/-- One event step: a tick runs `run_one_tick`; a delivery performs the
receiver side of `LSRouter.send` (`src/ls_router.py` lines 67-68). -/
def stepEvent (selfId : Int) : LSEvent → LSState → List LSOut × Option LSState
  | .tick c, s => run_one_tick selfId c s
  | .recv o lsa, s => ([], some { s with lsa_dict := aset o lsa s.lsa_dict })

/-- A whole run of one LS router over a list of events, collecting the
emitted actions; a crashed router (uncaught exception) processes no further
events. -/
def runLS (selfId : Int) : List LSEvent → LSState → List LSOut × Option LSState
  | [], s => ([], some s)
  | e :: rest, s =>
    match stepEvent selfId e s with
    | (ems, none) => (ems, none)
    | (ems, some s1) =>
      let res := runLS selfId rest s1
      (ems ++ res.1, res.2)

/-- Occurrence count of an action in an emission list. -/
def countOut (x : LSOut) : List LSOut → Nat
  | [] => 0
  | y :: rest => (if y = x then 1 else 0) + countOut x rest

/-- `WalkD selfId prev n v`: the predecessor walk of `next_hop` starting at
`v` reaches a direct child of `selfId` in at most `n` recursive steps,
never meeting `-1` or `selfId` on the way. -/
inductive WalkD (selfId : Int) (prev : Int → Int) : Nat → Int → Prop where
  | base (n : Nat) (v : Int) : v ≠ selfId → prev v = selfId →
      WalkD selfId prev n v
  | step (n : Nat) (v : Int) : v ≠ selfId → prev v ≠ -1 → prev v ≠ selfId →
      WalkD selfId prev n (prev v) → WalkD selfId prev (n + 1) v

/-- The invariant maintained while `relaxNeighbors` relaxes the outgoing
edges of the just-visited router `u` against the updated unvisited set
`nv2` (`ks` is the key list of `lsa_dict`, `b` bounds the predecessor-walk
length of routers relaxed in earlier iterations). -/
structure RelaxInv (selfId : Int) (ks nv2 : List Int) (b : Nat) (u : Int)
    (dist : Int → Option Int) (prev : Int → Int) : Prop where
  hprev : ∀ v, prev v ≠ -1 → v ≠ selfId ∧ v ∈ ks ∧ prev v ∉ nv2 ∧
    dist v ≠ none ∧ WalkD selfId prev (b + 1) v
  hself : prev selfId = -1
  hfin : ∀ v, v ≠ selfId → dist v ≠ none → prev v ≠ -1
  hdself : dist selfId ≠ none
  huOK : u = selfId ∨ (prev u ≠ -1 ∧ WalkD selfId prev b u)
  hu_not : u ∉ nv2
  hself_not : selfId ∉ nv2
  hdu : dist u ≠ none

/-- The invariant of the main loop of the embedded `dijkstras_algorithm`:
the unvisited set is duplicate-free and within the key set, self keeps
distance 0 and no predecessor, and every router with a predecessor is a
non-self key with finite distance whose predecessor is visited and whose
predecessor walk reaches a direct child of self in at most `b` steps. -/
structure LoopInv (selfId : Int) (ks : List Int) (b : Nat) (s : DState) :
    Prop where
  hnd : s.notVisited.Nodup
  hsub : ∀ v ∈ s.notVisited, v ∈ ks
  hself : s.prev selfId = -1
  hinit : selfId ∉ s.notVisited ∨ ∀ v, v ≠ selfId → s.dist v = none
  hdself : s.dist selfId ≠ none
  hprev : ∀ v, s.prev v ≠ -1 → v ≠ selfId ∧ v ∈ ks ∧
    s.prev v ∉ s.notVisited ∧ s.dist v ≠ none ∧ WalkD selfId s.prev b v
  hfin : ∀ v, v ≠ selfId → s.dist v ≠ none → s.prev v ≠ -1

end LS

theorem alookup_aset_self {α : Type} (k : Int) (v : α) (d : List (Int × α)) :
    alookup (aset k v d) k = some v := by
  induction d with
  | nil => simp [aset, alookup]
  | cons p rest ih =>
    obtain ⟨k1, v1⟩ := p
    by_cases h : k1 = k
    · simp [aset, h, alookup]
    · simp [aset, h, alookup, ih]

theorem alookup_aset_ne {α : Type} {k d : Int} (v : α) (l : List (Int × α))
    (h : d ≠ k) : alookup (aset k v l) d = alookup l d := by
  have hkd : ¬(k = d) := fun hh => h hh.symm
  induction l with
  | nil => simp [aset, alookup, hkd]
  | cons p rest ih =>
    obtain ⟨k1, v1⟩ := p
    by_cases h1 : k1 = k
    · subst h1
      simp [aset, alookup, hkd]
    · simp [aset, h1, alookup, ih]

theorem alookup_isSome_mem {α : Type} {d : List (Int × α)} {k : Int}
    (h : (alookup d k).isSome) : k ∈ akeys d := by
  induction d with
  | nil => simp [alookup] at h
  | cons p rest ih =>
    obtain ⟨k1, v1⟩ := p
    by_cases h1 : k1 = k
    · simp [akeys, h1]
    · simp only [alookup, if_neg h1] at h
      simp only [akeys, List.map_cons, List.mem_cons]
      exact Or.inr (ih h)

theorem alookup_none_of_not_mem {α : Type} {d : List (Int × α)} {k : Int}
    (h : k ∉ akeys d) : alookup d k = none := by
  cases hl : alookup d k with
  | none => rfl
  | some v => exact absurd (alookup_isSome_mem (by simp [hl])) h

theorem alookup_mem_pair {α : Type} {d : List (Int × α)} {k : Int} {v : α}
    (h : alookup d k = some v) : (k, v) ∈ d := by
  induction d with
  | nil => simp [alookup] at h
  | cons p rest ih =>
    obtain ⟨k1, v1⟩ := p
    by_cases h1 : k1 = k
    · subst h1
      have hv : v1 = v := by simpa [alookup] using h
      subst hv
      exact List.mem_cons_self _ _
    · simp only [alookup, if_neg h1] at h
      exact List.mem_cons_of_mem _ (ih h)

theorem akeys_aset_of_mem {α : Type} {k : Int} (v : α) {d : List (Int × α)}
    (h : k ∈ akeys d) : akeys (aset k v d) = akeys d := by
  induction d with
  | nil => simp [akeys] at h
  | cons p rest ih =>
    obtain ⟨k1, v1⟩ := p
    by_cases h1 : k1 = k
    · simp [aset, h1, akeys]
    · simp only [akeys, List.map_cons, List.mem_cons] at h
      rcases h with h | h
      · exact absurd h.symm h1
      · simp only [aset, if_neg h1, akeys, List.map_cons, List.cons.injEq, true_and]
        exact ih h

theorem aset_idem {α : Type} (k : Int) (v : α) (d : List (Int × α)) :
    aset k v (aset k v d) = aset k v d := by
  induction d with
  | nil => simp [aset]
  | cons p rest ih =>
    obtain ⟨k1, v1⟩ := p
    by_cases h1 : k1 = k
    · simp [aset, h1]
    · simp [aset, h1, ih]

theorem mem_akeys_aset {α : Type} {x k : Int} (v : α) (d : List (Int × α)) :
    x ∈ akeys (aset k v d) ↔ x = k ∨ x ∈ akeys d := by
  induction d with
  | nil => simp [aset, akeys]
  | cons p rest ih =>
    obtain ⟨k1, v1⟩ := p
    by_cases h1 : k1 = k
    · subst h1
      simp [aset, akeys]
    · simp only [aset, if_neg h1, akeys, List.map_cons, List.mem_cons]
      rw [show (x ∈ akeys (aset k v rest)) = (x ∈ List.map Prod.fst (aset k v rest))
        from rfl] at ih
      rw [ih]
      tauto

theorem akeys_aset_nodup {α : Type} (k : Int) (v : α) {d : List (Int × α)}
    (h : (akeys d).Nodup) : (akeys (aset k v d)).Nodup := by
  induction d with
  | nil => simp [aset, akeys]
  | cons p rest ih =>
    obtain ⟨k1, v1⟩ := p
    rw [show akeys ((k1, v1) :: rest) = k1 :: akeys rest from rfl,
      List.nodup_cons] at h
    by_cases h1 : k1 = k
    · subst h1
      rw [show aset k1 v ((k1, v1) :: rest) = (k1, v) :: rest from by simp [aset],
        show akeys ((k1, v) :: rest) = k1 :: akeys rest from rfl, List.nodup_cons]
      exact h
    · rw [show aset k v ((k1, v1) :: rest) = (k1, v1) :: aset k v rest from by
        simp [aset, h1],
        show akeys ((k1, v1) :: aset k v rest) = k1 :: akeys (aset k v rest) from rfl,
        List.nodup_cons]
      refine ⟨fun hmem => ?_, ih h.2⟩
      rcases (mem_akeys_aset v rest).mp hmem with hk | hk
      · exact h1 hk
      · exact h.1 hk

namespace DV

theorem dvLE_refl (a : List (Int × Int)) : dvLE a a :=
  fun d c h => ⟨c, h, le_refl c⟩

theorem dvLE_trans {a b c : List (Int × Int)} (h1 : dvLE a b) (h2 : dvLE b c) :
    dvLE a c := by
  intro d x hx
  obtain ⟨y, hy, hyx⟩ := h2 d x hx
  obtain ⟨z, hz, hzy⟩ := h1 d y hy
  exact ⟨z, hz, le_trans hzy hyx⟩

theorem relaxStep_dvLE (links dv_adv : List (Int × Int)) (adv_router dest : Int)
    (t : DVState) :
    dvLE (exceptState (relaxStep links dv_adv adv_router dest t)).dv t.dv := by
  unfold relaxStep
  cases ha : alookup dv_adv dest with
  | none => exact dvLE_refl _
  | some a =>
    cases hl : alookup links adv_router with
    | none => exact dvLE_refl _
    | some l =>
      cases hc : alookup t.dv dest with
      | none => exact dvLE_refl _
      | some c =>
        by_cases hlt : l + a < c
        · simp only [if_pos hlt, exceptState]
          intro d x hx
          by_cases hd : d = dest
          · subst hd
            refine ⟨l + a, alookup_aset_self _ _ _, ?_⟩
            have hxc : x = c := by
              rw [hx] at hc
              exact Option.some.inj hc
            subst hxc
            exact le_of_lt hlt
          · exact ⟨x, by rw [alookup_aset_ne _ _ hd]; exact hx, le_refl x⟩
        · simp only [if_neg hlt, exceptState]
          exact dvLE_refl _

theorem addStep_dvLE (links dv_adv : List (Int × Int)) (adv_router dest : Int)
    (t : DVState) :
    dvLE (exceptState (addStep links dv_adv adv_router dest t)).dv t.dv := by
  unfold addStep
  cases hc : alookup t.dv dest with
  | some c => exact dvLE_refl _
  | none =>
    cases hl : alookup links adv_router with
    | none => exact dvLE_refl _
    | some l =>
      cases ha : alookup dv_adv dest with
      | none => exact dvLE_refl _
      | some a =>
        simp only [exceptState]
        intro d x hx
        by_cases hd : d = dest
        · subst hd
          rw [hx] at hc
          exact absurd hc (by simp)
        · exact ⟨x, by rw [alookup_aset_ne _ _ hd]; exact hx, le_refl x⟩

theorem relaxLoop_dvLE (links dv_adv : List (Int × Int)) (adv_router : Int)
    (ks : List Int) (t : DVState) :
    dvLE (exceptState (relaxLoop links dv_adv adv_router ks t)).dv t.dv := by
  induction ks generalizing t with
  | nil => exact dvLE_refl _
  | cons d rest ih =>
    have hstep := relaxStep_dvLE links dv_adv adv_router d t
    unfold relaxLoop
    cases hs : relaxStep links dv_adv adv_router d t with
    | error e =>
      rw [hs] at hstep
      exact hstep
    | ok s1 =>
      rw [hs] at hstep
      exact dvLE_trans (ih s1) hstep

theorem addLoop_dvLE (links dv_adv : List (Int × Int)) (adv_router : Int)
    (ks : List Int) (t : DVState) :
    dvLE (exceptState (addLoop links dv_adv adv_router ks t)).dv t.dv := by
  induction ks generalizing t with
  | nil => exact dvLE_refl _
  | cons d rest ih =>
    have hstep := addStep_dvLE links dv_adv adv_router d t
    unfold addLoop
    cases hs : addStep links dv_adv adv_router d t with
    | error e =>
      rw [hs] at hstep
      exact hstep
    | ok s1 =>
      rw [hs] at hstep
      exact dvLE_trans (ih s1) hstep

theorem process_advertisement_eq (links dv_adv : List (Int × Int))
    (adv_router : Int) (s : DVState) :
    process_advertisement links dv_adv adv_router s =
      match relaxLoop links dv_adv adv_router (akeys s.dv)
          { s with dv_change := false } with
      | .error e => .error e
      | .ok s1 => addLoop links dv_adv adv_router (akeys dv_adv) s1 := rfl

theorem process_advertisement_dvLE (links dv_adv : List (Int × Int))
    (adv_router : Int) (s : DVState) :
    dvLE (exceptState (process_advertisement links dv_adv adv_router s)).dv s.dv := by
  rw [process_advertisement_eq]
  have h1 := relaxLoop_dvLE links dv_adv adv_router (akeys s.dv)
    { s with dv_change := false }
  cases hr : relaxLoop links dv_adv adv_router (akeys s.dv)
      { s with dv_change := false } with
  | error e =>
    rw [hr] at h1
    exact h1
  | ok s1 =>
    rw [hr] at h1
    exact dvLE_trans (addLoop_dvLE links dv_adv adv_router (akeys dv_adv) s1) h1

/-- C5: DV distances are monotone non-increasing.  A `process_advertisement`
call (whether it returns or raises) never increases any recorded distance
(an absent key meaning infinity), and `run_one_tick` does not touch `dv` at
all. -/
theorem claim_C5_dv_monotone (links dv_adv : List (Int × Int)) (adv_router : Int)
    (s : DVState) (hL : ∀ p ∈ links, 0 ≤ p.2) (hA : ∀ p ∈ dv_adv, 0 ≤ p.2) :
    dvLE (exceptState (process_advertisement links dv_adv adv_router s)).dv s.dv ∧
    (run_one_tick s).1.dv = s.dv := by
  refine ⟨process_advertisement_dvLE links dv_adv adv_router s, ?_⟩
  unfold run_one_tick
  by_cases h : s.dv_change <;> simp [h]

/-- C5 witness. -/
theorem claim_C5_dv_monotone_witness :
    dvLE (exceptState (process_advertisement [(1, 2)] [(3, 1), (4, 5)] 1
        ⟨[(0, 0), (3, 10)], [(0, 0), (3, 3)], true⟩)).dv [(0, 0), (3, 10)] ∧
    (run_one_tick ⟨[(0, 0), (3, 10)], [(0, 0), (3, 3)], true⟩).1.dv =
      [(0, 0), (3, 10)] :=
  claim_C5_dv_monotone [(1, 2)] [(3, 1), (4, 5)] 1
    ⟨[(0, 0), (3, 10)], [(0, 0), (3, 3)], true⟩
    (by decide) (by decide)

theorem relaxStep_links_none {links dv_adv : List (Int × Int)} {adv_router : Int}
    (hl : alookup links adv_router = none) (dest : Int) (t : DVState) :
    relaxStep links dv_adv adv_router dest t =
      (if (alookup dv_adv dest).isSome then .error t else .ok t) := by
  unfold relaxStep
  cases ha : alookup dv_adv dest with
  | none => simp
  | some a => simp [hl]

theorem relaxLoop_links_none {links dv_adv : List (Int × Int)} {adv_router : Int}
    (hl : alookup links adv_router = none) (ks : List Int) (t : DVState) :
    relaxLoop links dv_adv adv_router ks t = .ok t ∨
    relaxLoop links dv_adv adv_router ks t = .error t := by
  induction ks with
  | nil => exact Or.inl rfl
  | cons d rest ih =>
    unfold relaxLoop
    rw [relaxStep_links_none hl]
    by_cases hd : (alookup dv_adv d).isSome
    · rw [if_pos hd]
      exact Or.inr rfl
    · rw [if_neg hd]
      exact ih

theorem relaxLoop_links_none_err {links dv_adv : List (Int × Int)} {adv_router : Int}
    (hl : alookup links adv_router = none) {ks : List Int} (t : DVState)
    (hex : ∃ d ∈ ks, (alookup dv_adv d).isSome) :
    relaxLoop links dv_adv adv_router ks t = .error t := by
  induction ks with
  | nil =>
    obtain ⟨d, hd, _⟩ := hex
    exact absurd hd (List.not_mem_nil d)
  | cons k rest ih =>
    unfold relaxLoop
    rw [relaxStep_links_none hl]
    by_cases hk : (alookup dv_adv k).isSome
    · rw [if_pos hk]
    · rw [if_neg hk]
      obtain ⟨d, hd, hds⟩ := hex
      rcases List.mem_cons.mp hd with hd | hd
      · subst hd
        exact absurd hds hk
      · exact ih ⟨d, hd, hds⟩

theorem addStep_links_none {links dv_adv : List (Int × Int)} {adv_router : Int}
    (hl : alookup links adv_router = none) (dest : Int) (t : DVState) :
    addStep links dv_adv adv_router dest t =
      (if (alookup t.dv dest).isSome then .ok t else .error t) := by
  unfold addStep
  cases hc : alookup t.dv dest with
  | none => simp [hl]
  | some c => simp

theorem addLoop_links_none_err {links dv_adv : List (Int × Int)} {adv_router : Int}
    (hl : alookup links adv_router = none) {ks : List Int} (t : DVState)
    (hex : ∃ d ∈ ks, alookup t.dv d = none) :
    addLoop links dv_adv adv_router ks t = .error t := by
  induction ks with
  | nil =>
    obtain ⟨d, hd, _⟩ := hex
    exact absurd hd (List.not_mem_nil d)
  | cons k rest ih =>
    unfold addLoop
    rw [addStep_links_none hl]
    by_cases hk : (alookup t.dv k).isSome
    · rw [if_pos hk]
      obtain ⟨d, hd, hds⟩ := hex
      rcases List.mem_cons.mp hd with hd | hd
      · subst hd
        rw [hds] at hk
        exact absurd hk (by simp)
      · exact ih ⟨d, hd, hds⟩
    · rw [if_neg hk]

/-- C10: `process_advertisement` requires `adv_router` to be a key of
`links`: as soon as `dv_adv` shares a destination with the local vector, or
contains a destination absent from it, `links[adv_router]` is evaluated and
the call raises `KeyError` if `adv_router` is unknown; at the moment the
exception propagates, `dv_change` has already been reset to `False` while
`dv` and `fwd_table` are unchanged. -/
theorem claim_C10_missing_neighbor_keyerror (links dv_adv : List (Int × Int))
    (adv_router : Int) (s : DVState)
    (hl : alookup links adv_router = none)
    (hd : (∃ d, (alookup s.dv d).isSome ∧ (alookup dv_adv d).isSome) ∨
          (∃ d, (alookup dv_adv d).isSome ∧ alookup s.dv d = none)) :
    process_advertisement links dv_adv adv_router s =
      .error { dv := s.dv, fwd_table := s.fwd_table, dv_change := false } := by
  rw [process_advertisement_eq]
  have hs0dv : ({ s with dv_change := false } : DVState).dv = s.dv := rfl
  rcases hd with ⟨d, hdv, hadv⟩ | ⟨d, hadv, hnone⟩
  · have hmem : d ∈ akeys s.dv := alookup_isSome_mem hdv
    rw [relaxLoop_links_none_err hl _ ⟨d, hmem, hadv⟩]
  · rcases relaxLoop_links_none hl (akeys s.dv) { s with dv_change := false } with
      hr | hr
    · rw [hr]
      have hmem : d ∈ akeys dv_adv := alookup_isSome_mem hadv
      exact addLoop_links_none_err hl _ ⟨d, hmem, hnone⟩
    · rw [hr]

/-- C10 witness. -/
theorem claim_C10_missing_neighbor_keyerror_witness :
    process_advertisement [] [(0, 3)] 1 ⟨[(0, 0)], [(0, 0)], true⟩ =
      .error { dv := [(0, 0)], fwd_table := [(0, 0)], dv_change := false } :=
  claim_C10_missing_neighbor_keyerror [] [(0, 3)] 1 ⟨[(0, 0)], [(0, 0)], true⟩
    (by decide) (Or.inl ⟨0, by decide, by decide⟩)

theorem relaxStep_selfOK {links dv_adv : List (Int × Int)} (adv_router : Int)
    {router_id : Int} (hL : ∀ p ∈ links, 0 ≤ p.2) (hA : ∀ p ∈ dv_adv, 0 ≤ p.2)
    (dest : Int) {t : DVState} (ht : selfEntryOK router_id t) :
    selfEntryOK router_id (exceptState (relaxStep links dv_adv adv_router dest t)) := by
  unfold relaxStep
  cases ha : alookup dv_adv dest with
  | none => exact ht
  | some a =>
    cases hl : alookup links adv_router with
    | none => exact ht
    | some l =>
      cases hc : alookup t.dv dest with
      | none => exact ht
      | some c =>
        by_cases hlt : l + a < c
        · simp only [if_pos hlt, exceptState]
          have hdest : dest ≠ router_id := by
            intro he
            subst he
            rw [ht.1] at hc
            have hc0 : c = 0 := (Option.some.inj hc).symm
            have hl0 : 0 ≤ l := hL _ (alookup_mem_pair hl)
            have ha0 : 0 ≤ a := hA _ (alookup_mem_pair ha)
            omega
          refine ⟨?_, ?_⟩
          · show alookup (aset dest (l + a) t.dv) router_id = some 0
            rw [alookup_aset_ne _ _ (Ne.symm hdest)]
            exact ht.1
          · show alookup (aset dest adv_router t.fwd_table) router_id = some router_id
            rw [alookup_aset_ne _ _ (Ne.symm hdest)]
            exact ht.2
        · simp only [if_neg hlt, exceptState]
          exact ht

theorem addStep_selfOK (links dv_adv : List (Int × Int)) (adv_router : Int)
    {router_id : Int} (dest : Int) {t : DVState} (ht : selfEntryOK router_id t) :
    selfEntryOK router_id (exceptState (addStep links dv_adv adv_router dest t)) := by
  unfold addStep
  cases hc : alookup t.dv dest with
  | some c => exact ht
  | none =>
    cases hl : alookup links adv_router with
    | none => exact ht
    | some l =>
      cases ha : alookup dv_adv dest with
      | none => exact ht
      | some a =>
        simp only [exceptState]
        have hdest : dest ≠ router_id := by
          intro he
          subst he
          rw [ht.1] at hc
          exact absurd hc (by simp)
        refine ⟨?_, ?_⟩
        · show alookup (aset dest (l + a) t.dv) router_id = some 0
          rw [alookup_aset_ne _ _ (Ne.symm hdest)]
          exact ht.1
        · show alookup (aset dest adv_router t.fwd_table) router_id = some router_id
          rw [alookup_aset_ne _ _ (Ne.symm hdest)]
          exact ht.2

theorem relaxLoop_selfOK {links dv_adv : List (Int × Int)} (adv_router : Int)
    {router_id : Int} (hL : ∀ p ∈ links, 0 ≤ p.2) (hA : ∀ p ∈ dv_adv, 0 ≤ p.2)
    (ks : List Int) {t : DVState} (ht : selfEntryOK router_id t) :
    selfEntryOK router_id (exceptState (relaxLoop links dv_adv adv_router ks t)) := by
  induction ks generalizing t with
  | nil => exact ht
  | cons d rest ih =>
    have hstep := relaxStep_selfOK adv_router hL hA d ht
    unfold relaxLoop
    cases hs : relaxStep links dv_adv adv_router d t with
    | error e =>
      rw [hs] at hstep
      exact hstep
    | ok s1 =>
      rw [hs] at hstep
      exact ih hstep

theorem addLoop_selfOK (links dv_adv : List (Int × Int)) (adv_router : Int)
    {router_id : Int} (ks : List Int) {t : DVState} (ht : selfEntryOK router_id t) :
    selfEntryOK router_id (exceptState (addLoop links dv_adv adv_router ks t)) := by
  induction ks generalizing t with
  | nil => exact ht
  | cons d rest ih =>
    have hstep := addStep_selfOK links dv_adv adv_router d ht
    unfold addLoop
    cases hs : addStep links dv_adv adv_router d t with
    | error e =>
      rw [hs] at hstep
      exact hstep
    | ok s1 =>
      rw [hs] at hstep
      exact ih hstep

/-- C6: after `initialize_algorithm`, `dv[self] = 0` and
`fwd_table[self] = self`; and with nonnegative link costs and nonnegative
advertised distances, any `process_advertisement` call (returning or
raising) preserves the self entry, because no candidate cost can beat 0. -/
theorem claim_C6_self_entry (links dv_adv : List (Int × Int))
    (router_id adv_router : Int) (s : DVState)
    (hL : ∀ p ∈ links, 0 ≤ p.2) (hA : ∀ p ∈ dv_adv, 0 ≤ p.2)
    (hs : selfEntryOK router_id s) :
    selfEntryOK router_id (initialize_algorithm links router_id) ∧
    selfEntryOK router_id
      (exceptState (process_advertisement links dv_adv adv_router s)) := by
  constructor
  · exact ⟨alookup_aset_self _ _ _, alookup_aset_self _ _ _⟩
  · have hs0 : selfEntryOK router_id ({ s with dv_change := false } : DVState) := hs
    rw [process_advertisement_eq]
    have h1 := relaxLoop_selfOK adv_router hL hA (akeys s.dv) hs0
    cases hr : relaxLoop links dv_adv adv_router (akeys s.dv)
        { s with dv_change := false } with
    | error e =>
      rw [hr] at h1
      exact h1
    | ok s1 =>
      rw [hr] at h1
      exact addLoop_selfOK links dv_adv adv_router (akeys dv_adv) h1

theorem alookup_isSome_of_mem {α : Type} {d : List (Int × α)} {k : Int}
    (h : k ∈ akeys d) : (alookup d k).isSome := by
  induction d with
  | nil => simp [akeys] at h
  | cons p rest ih =>
    obtain ⟨k1, v1⟩ := p
    by_cases h1 : k1 = k
    · simp [alookup, h1]
    · rw [show akeys ((k1, v1) :: rest) = k1 :: akeys rest from rfl] at h
      rcases List.mem_cons.mp h with h2 | h2
      · exact absurd h2.symm h1
      · rw [show alookup ((k1, v1) :: rest) k =
            if k1 = k then some v1 else alookup rest k from rfl, if_neg h1]
        exact ih h2

theorem relaxStep_other {links dv_adv : List (Int × Int)} {adv_router k : Int}
    {t s1 : DVState} (h : relaxStep links dv_adv adv_router k t = .ok s1)
    {d : Int} (hd : d ≠ k) :
    alookup s1.dv d = alookup t.dv d ∧
    alookup s1.fwd_table d = alookup t.fwd_table d := by
  unfold relaxStep at h
  split at h
  · injection h with h
    subst h
    exact ⟨rfl, rfl⟩
  · split at h
    · exact absurd h (by simp)
    · split at h
      · injection h with h
        subst h
        exact ⟨rfl, rfl⟩
      · split at h
        · injection h with h
          subst h
          exact ⟨alookup_aset_ne _ _ hd, alookup_aset_ne _ _ hd⟩
        · injection h with h
          subst h
          exact ⟨rfl, rfl⟩

theorem addStep_other {links dv_adv : List (Int × Int)} {adv_router k : Int}
    {t s1 : DVState} (h : addStep links dv_adv adv_router k t = .ok s1)
    {d : Int} (hd : d ≠ k) :
    alookup s1.dv d = alookup t.dv d ∧
    alookup s1.fwd_table d = alookup t.fwd_table d := by
  unfold addStep at h
  split at h
  · injection h with h
    subst h
    exact ⟨rfl, rfl⟩
  · split at h
    · exact absurd h (by simp)
    · split at h
      · injection h with h
        subst h
        exact ⟨rfl, rfl⟩
      · injection h with h
        subst h
        exact ⟨alookup_aset_ne _ _ hd, alookup_aset_ne _ _ hd⟩

theorem relaxStep_adv_none {links dv_adv : List (Int × Int)} {adv_router k : Int}
    (t : DVState) (h : alookup dv_adv k = none) :
    relaxStep links dv_adv adv_router k t = .ok t := by
  unfold relaxStep
  rw [h]

theorem relaxLoop_pres {links dv_adv : List (Int × Int)} {adv_router : Int}
    {ks : List Int} {t t2 : DVState} {d : Int}
    (hd : d ∉ ks ∨ alookup dv_adv d = none)
    (h : relaxLoop links dv_adv adv_router ks t = .ok t2) :
    alookup t2.dv d = alookup t.dv d ∧
    alookup t2.fwd_table d = alookup t.fwd_table d := by
  induction ks generalizing t with
  | nil =>
    cases h
    exact ⟨rfl, rfl⟩
  | cons k rest ih =>
    unfold relaxLoop at h
    cases hs : relaxStep links dv_adv adv_router k t with
    | error e => rw [hs] at h; cases h
    | ok s1 =>
      rw [hs] at h
      have hrest : d ∉ rest ∨ alookup dv_adv d = none := by
        rcases hd with hd | hd
        · exact Or.inl (fun hm => hd (List.mem_cons_of_mem _ hm))
        · exact Or.inr hd
      have hstep : alookup s1.dv d = alookup t.dv d ∧
          alookup s1.fwd_table d = alookup t.fwd_table d := by
        by_cases hdk : d = k
        · subst hdk
          rcases hd with hd | hd
          · exact absurd (List.mem_cons_self _ _) hd
          · rw [relaxStep_adv_none t hd] at hs
            cases hs
            exact ⟨rfl, rfl⟩
        · exact relaxStep_other hs hdk
      obtain ⟨h1, h2⟩ := ih hrest h
      exact ⟨h1.trans hstep.1, h2.trans hstep.2⟩

theorem addLoop_pres {links dv_adv : List (Int × Int)} {adv_router : Int}
    {ks : List Int} {t t2 : DVState} {d : Int}
    (hd : d ∉ ks ∨ (alookup t.dv d).isSome)
    (h : addLoop links dv_adv adv_router ks t = .ok t2) :
    alookup t2.dv d = alookup t.dv d ∧
    alookup t2.fwd_table d = alookup t.fwd_table d := by
  induction ks generalizing t with
  | nil =>
    cases h
    exact ⟨rfl, rfl⟩
  | cons k rest ih =>
    unfold addLoop at h
    cases hs : addStep links dv_adv adv_router k t with
    | error e => rw [hs] at h; cases h
    | ok s1 =>
      rw [hs] at h
      have hstep : alookup s1.dv d = alookup t.dv d ∧
          alookup s1.fwd_table d = alookup t.fwd_table d := by
        by_cases hdk : d = k
        · subst hdk
          rcases hd with hd | hd
          · exact absurd (List.mem_cons_self _ _) hd
          · cases hc : alookup t.dv d with
            | none => rw [hc] at hd; exact absurd hd (by simp)
            | some c =>
              unfold addStep at hs
              simp only [hc] at hs
              injection hs with hs
              subst hs
              exact ⟨hc, rfl⟩
        · exact addStep_other hs hdk
      have hrest : d ∉ rest ∨ (alookup s1.dv d).isSome := by
        rcases hd with hd | hd
        · exact Or.inl (fun hm => hd (List.mem_cons_of_mem _ hm))
        · exact Or.inr (by rw [hstep.1]; exact hd)
      obtain ⟨h1, h2⟩ := ih hrest h
      exact ⟨h1.trans hstep.1, h2.trans hstep.2⟩

theorem relaxLoop_upd {links dv_adv : List (Int × Int)} {adv_router : Int}
    {ks : List Int} {t t2 : DVState} {d : Int} {a l c : Int}
    (hnd : ks.Nodup) (hmem : d ∈ ks)
    (ha : alookup dv_adv d = some a) (hl : alookup links adv_router = some l)
    (hc : alookup t.dv d = some c) (hlt : l + a < c)
    (h : relaxLoop links dv_adv adv_router ks t = .ok t2) :
    alookup t2.dv d = some (l + a) ∧
    alookup t2.fwd_table d = some adv_router := by
  induction ks generalizing t with
  | nil => exact absurd hmem (List.not_mem_nil d)
  | cons k rest ih =>
    unfold relaxLoop at h
    cases hs : relaxStep links dv_adv adv_router k t with
    | error e => rw [hs] at h; cases h
    | ok s1 =>
      rw [hs] at h
      by_cases hdk : d = k
      · subst hdk
        have hd_not_rest : d ∉ rest := (List.nodup_cons.mp hnd).1
        have hs1 : alookup s1.dv d = some (l + a) ∧
            alookup s1.fwd_table d = some adv_router := by
          unfold relaxStep at hs
          simp only [ha, hl, hc] at hs
          rw [if_pos hlt] at hs
          injection hs with hs
          subst hs
          exact ⟨alookup_aset_self _ _ _, alookup_aset_self _ _ _⟩
        obtain ⟨h1, h2⟩ := relaxLoop_pres (Or.inl hd_not_rest) h
        exact ⟨h1.trans hs1.1, h2.trans hs1.2⟩
      · rcases List.mem_cons.mp hmem with hmem1 | hmem1
        · exact absurd hmem1 hdk
        · have hstep := relaxStep_other hs hdk
          exact ih (List.nodup_cons.mp hnd).2 hmem1 (hstep.1.trans hc) h

/-- C6 witness. -/
theorem claim_C6_self_entry_witness :
    selfEntryOK 0 (initialize_algorithm [(1, 2)] 0) ∧
    selfEntryOK 0 (exceptState (process_advertisement [(1, 2)] [(0, 1), (4, 5)] 1
      ⟨[(0, 0), (1, 2)], [(0, 0), (1, 1)], false⟩)) :=
  claim_C6_self_entry [(1, 2)] [(0, 1), (4, 5)] 0 1
    ⟨[(0, 0), (1, 2)], [(0, 0), (1, 1)], false⟩
    (by decide) (by decide) ⟨by decide, by decide⟩

theorem addLoop_upd {links dv_adv : List (Int × Int)} {adv_router : Int}
    {ks : List Int} {t t2 : DVState} {d : Int} {a l : Int}
    (hnd : ks.Nodup) (hmem : d ∈ ks)
    (ha : alookup dv_adv d = some a) (hl : alookup links adv_router = some l)
    (hc : alookup t.dv d = none)
    (h : addLoop links dv_adv adv_router ks t = .ok t2) :
    alookup t2.dv d = some (l + a) ∧
    alookup t2.fwd_table d = some adv_router := by
  induction ks generalizing t with
  | nil => exact absurd hmem (List.not_mem_nil d)
  | cons k rest ih =>
    unfold addLoop at h
    cases hs : addStep links dv_adv adv_router k t with
    | error e => rw [hs] at h; cases h
    | ok s1 =>
      rw [hs] at h
      by_cases hdk : d = k
      · subst hdk
        have hd_not_rest : d ∉ rest := (List.nodup_cons.mp hnd).1
        have hs1 : alookup s1.dv d = some (l + a) ∧
            alookup s1.fwd_table d = some adv_router := by
          unfold addStep at hs
          simp only [hc, hl, ha] at hs
          injection hs with hs
          subst hs
          exact ⟨alookup_aset_self _ _ _, alookup_aset_self _ _ _⟩
        obtain ⟨h1, h2⟩ := addLoop_pres (Or.inl hd_not_rest) h
        exact ⟨h1.trans hs1.1, h2.trans hs1.2⟩
      · rcases List.mem_cons.mp hmem with hmem1 | hmem1
        · exact absurd hmem1 hdk
        · have hstep := addStep_other hs hdk
          exact ih (List.nodup_cons.mp hnd).2 hmem1 (hstep.1.trans hc) h

/-- C1: the effect of one `process_advertisement(dv_adv, adv_router)` call
that returns normally, destination by destination.  (i) A destination
present in the local vector with cost `c` that also appears in `dv_adv`
with `links[adv_router] + dv_adv[d] < c` ends with the candidate cost and
`adv_router` as next hop; (ii) a destination of `dv_adv` absent locally is
adopted at cost `links[adv_router] + dv_adv[d]` with next hop `adv_router`;
(iii) a destination absent from `dv_adv` keeps both its `dv` and
`fwd_table` entries unchanged. -/
theorem claim_C1_process_advertisement_effect (links dv_adv : List (Int × Int))
    (adv_router : Int) (s s2 : DVState)
    (hnd : (akeys s.dv).Nodup) (hna : (akeys dv_adv).Nodup)
    (hok : process_advertisement links dv_adv adv_router s = .ok s2) :
    (∀ d c a l, alookup s.dv d = some c → alookup dv_adv d = some a →
      alookup links adv_router = some l → l + a < c →
      alookup s2.dv d = some (l + a) ∧
      alookup s2.fwd_table d = some adv_router) ∧
    (∀ d a l, alookup s.dv d = none → alookup dv_adv d = some a →
      alookup links adv_router = some l →
      alookup s2.dv d = some (l + a) ∧
      alookup s2.fwd_table d = some adv_router) ∧
    (∀ d, alookup dv_adv d = none →
      alookup s2.dv d = alookup s.dv d ∧
      alookup s2.fwd_table d = alookup s.fwd_table d) := by
  rw [process_advertisement_eq] at hok
  cases hr : relaxLoop links dv_adv adv_router (akeys s.dv)
      { s with dv_change := false } with
  | error e => rw [hr] at hok; cases hok
  | ok t1 =>
    rw [hr] at hok
    refine ⟨?_, ?_, ?_⟩
    · intro d c a l hc ha hl hlt
      have hmem : d ∈ akeys s.dv :=
        alookup_isSome_mem (by rw [show alookup s.dv d = some c from hc]; rfl)
      have ht1 : alookup t1.dv d = some (l + a) ∧
          alookup t1.fwd_table d = some adv_router :=
        relaxLoop_upd hnd hmem ha hl
          (show alookup ({ s with dv_change := false } : DVState).dv d = some c
            from hc) hlt hr
      obtain ⟨h1, h2⟩ := addLoop_pres (Or.inr (by rw [ht1.1]; rfl)) hok
      exact ⟨h1.trans ht1.1, h2.trans ht1.2⟩
    · intro d a l hc ha hl
      have hnotmem : d ∉ akeys s.dv := by
        intro hm
        have hsome := alookup_isSome_of_mem hm
        rw [hc] at hsome
        exact absurd hsome (by simp)
      obtain ⟨h1, h2⟩ := relaxLoop_pres (Or.inl hnotmem) hr
      have hmem : d ∈ akeys dv_adv :=
        alookup_isSome_mem (by rw [show alookup dv_adv d = some a from ha]; rfl)
      have hc1 : alookup t1.dv d = none := by
        rw [h1]
        exact hc
      exact addLoop_upd hna hmem ha hl hc1 hok
    · intro d ha
      obtain ⟨h1, h2⟩ := relaxLoop_pres (Or.inr ha) hr
      have hnotmem : d ∉ akeys dv_adv := by
        intro hm
        have hsome := alookup_isSome_of_mem hm
        rw [ha] at hsome
        exact absurd hsome (by simp)
      obtain ⟨h3, h4⟩ := addLoop_pres (Or.inl hnotmem) hok
      exact ⟨h3.trans h1, h4.trans h2⟩

/-- C1 witness: `links = {1: 2}`, advertisement `{3: 1, 4: 5}` from router 1,
local vector `{0: 0, 3: 10}`: destination 3 improves to `2 + 1 = 3` via 1,
destination 4 is adopted at `2 + 5 = 7` via 1, destination 0 (absent from
the advertisement) is untouched. -/
theorem claim_C1_process_advertisement_effect_witness :
    (alookup (⟨[(0, 0), (3, 3), (4, 7)], [(0, 0), (3, 1), (4, 1)], true⟩ :
        DVState).dv 3 = some 3 ∧
     alookup (⟨[(0, 0), (3, 3), (4, 7)], [(0, 0), (3, 1), (4, 1)], true⟩ :
        DVState).fwd_table 3 = some 1) ∧
    (alookup (⟨[(0, 0), (3, 3), (4, 7)], [(0, 0), (3, 1), (4, 1)], true⟩ :
        DVState).dv 4 = some 7 ∧
     alookup (⟨[(0, 0), (3, 3), (4, 7)], [(0, 0), (3, 1), (4, 1)], true⟩ :
        DVState).fwd_table 4 = some 1) ∧
    (alookup (⟨[(0, 0), (3, 3), (4, 7)], [(0, 0), (3, 1), (4, 1)], true⟩ :
        DVState).dv 0 = some 0 ∧
     alookup (⟨[(0, 0), (3, 3), (4, 7)], [(0, 0), (3, 1), (4, 1)], true⟩ :
        DVState).fwd_table 0 = some 0) := by
  have h := claim_C1_process_advertisement_effect [(1, 2)] [(3, 1), (4, 5)] 1
    ⟨[(0, 0), (3, 10)], [(0, 0), (3, 3)], true⟩
    ⟨[(0, 0), (3, 3), (4, 7)], [(0, 0), (3, 1), (4, 1)], true⟩
    (by decide) (by decide) rfl
  refine ⟨h.1 3 10 1 2 (by decide) (by decide) (by decide) (by decide),
    h.2.1 4 5 2 (by decide) (by decide) (by decide), ?_⟩
  have h3 := h.2.2 0 (by decide)
  exact ⟨h3.1.trans (by decide), h3.2.trans (by decide)⟩

theorem Changed_ne {old new : List (Int × Int)} {d : Int}
    (h : Changed old new d) : alookup new d ≠ alookup old d := by
  intro heq
  rcases h with ⟨h1, h2⟩ | ⟨c, c2, h1, h2, h3⟩
  · rw [heq, h1] at h2
    exact absurd h2 (by simp)
  · rw [heq, h1] at h2
    have : c2 = c := (Option.some.inj h2).symm
    omega

theorem relaxStep_C3Inv {links dv_adv : List (Int × Int)} {adv_router k : Int}
    {old t s1 : DVState} (hinv : C3Inv old t)
    (h : relaxStep links dv_adv adv_router k t = .ok s1) : C3Inv old s1 := by
  unfold relaxStep at h
  split at h
  · injection h with h
    subst h
    exact hinv
  next a ha =>
    split at h
    · exact absurd h (by simp)
    next l hl =>
      split at h
      · injection h with h
        subst h
        exact hinv
      next c hc =>
        split at h
        next hlt =>
          injection h with h
          subst h
          have hch : Changed old.dv (aset k (l + a) t.dv) k := by
            rcases hinv.2.2 k with heq | hch
            · rw [hc] at heq
              exact Or.inr ⟨c, l + a, heq.symm, alookup_aset_self _ _ _, hlt⟩
            · rcases hch with ⟨h1, h2⟩ | ⟨c0, c2, h1, h2, h3⟩
              · exact Or.inl ⟨h1, by rw [alookup_aset_self]; rfl⟩
              · rw [hc] at h2
                have hcc : c = c2 := Option.some.inj h2
                exact Or.inr ⟨c0, l + a, h1, alookup_aset_self _ _ _, by omega⟩
          refine ⟨fun hf => by simp at hf, fun _ => ⟨k, hch⟩, fun d => ?_⟩
          by_cases hdk : d = k
          · subst hdk
            exact Or.inr hch
          · rcases hinv.2.2 d with heq | hch2
            · exact Or.inl (by
                show alookup (aset k (l + a) t.dv) d = alookup old.dv d
                rw [alookup_aset_ne _ _ hdk]
                exact heq)
            · refine Or.inr ?_
              rcases hch2 with ⟨h1, h2⟩ | ⟨c0, c2, h1, h2, h3⟩
              · exact Or.inl ⟨h1, by
                  show (alookup (aset k (l + a) t.dv) d).isSome = true
                  rw [alookup_aset_ne _ _ hdk]
                  exact h2⟩
              · exact Or.inr ⟨c0, c2, h1, by
                  show alookup (aset k (l + a) t.dv) d = some c2
                  rw [alookup_aset_ne _ _ hdk]
                  exact h2, h3⟩
        · injection h with h
          subst h
          exact hinv

theorem addStep_C3Inv {links dv_adv : List (Int × Int)} {adv_router k : Int}
    {old t s1 : DVState} (hinv : C3Inv old t)
    (h : addStep links dv_adv adv_router k t = .ok s1) : C3Inv old s1 := by
  unfold addStep at h
  split at h
  · injection h with h
    subst h
    exact hinv
  next hc =>
    split at h
    · exact absurd h (by simp)
    next l hl =>
      split at h
      · injection h with h
        subst h
        exact hinv
      next a ha =>
        injection h with h
        subst h
        have hch : Changed old.dv (aset k (l + a) t.dv) k := by
          rcases hinv.2.2 k with heq | hch
          · rw [hc] at heq
            exact Or.inl ⟨heq.symm, by rw [alookup_aset_self]; rfl⟩
          · rcases hch with ⟨h1, h2⟩ | ⟨c0, c2, h1, h2, h3⟩
            · rw [hc] at h2
              exact absurd h2 (by simp)
            · rw [hc] at h2
              exact absurd h2 (by simp)
        refine ⟨fun hf => by simp at hf, fun _ => ⟨k, hch⟩, fun d => ?_⟩
        by_cases hdk : d = k
        · subst hdk
          exact Or.inr hch
        · rcases hinv.2.2 d with heq | hch2
          · exact Or.inl (by
              show alookup (aset k (l + a) t.dv) d = alookup old.dv d
              rw [alookup_aset_ne _ _ hdk]
              exact heq)
          · refine Or.inr ?_
            rcases hch2 with ⟨h1, h2⟩ | ⟨c0, c2, h1, h2, h3⟩
            · exact Or.inl ⟨h1, by
                show (alookup (aset k (l + a) t.dv) d).isSome = true
                rw [alookup_aset_ne _ _ hdk]
                exact h2⟩
            · exact Or.inr ⟨c0, c2, h1, by
                show alookup (aset k (l + a) t.dv) d = some c2
                rw [alookup_aset_ne _ _ hdk]
                exact h2, h3⟩

theorem relaxLoop_C3Inv {links dv_adv : List (Int × Int)} {adv_router : Int}
    {ks : List Int} {old t t2 : DVState} (hinv : C3Inv old t)
    (h : relaxLoop links dv_adv adv_router ks t = .ok t2) : C3Inv old t2 := by
  induction ks generalizing t with
  | nil =>
    injection h with h
    subst h
    exact hinv
  | cons k rest ih =>
    unfold relaxLoop at h
    cases hs : relaxStep links dv_adv adv_router k t with
    | error e => rw [hs] at h; cases h
    | ok s1 =>
      rw [hs] at h
      exact ih (relaxStep_C3Inv hinv hs) h

theorem addLoop_C3Inv {links dv_adv : List (Int × Int)} {adv_router : Int}
    {ks : List Int} {old t t2 : DVState} (hinv : C3Inv old t)
    (h : addLoop links dv_adv adv_router ks t = .ok t2) : C3Inv old t2 := by
  induction ks generalizing t with
  | nil =>
    injection h with h
    subst h
    exact hinv
  | cons k rest ih =>
    unfold addLoop at h
    cases hs : addStep links dv_adv adv_router k t with
    | error e => rw [hs] at h; cases h
    | ok s1 =>
      rw [hs] at h
      exact ih (addStep_C3Inv hinv hs) h

/-- C3: after a `process_advertisement` call that returns normally,
`dv_change` is true if and only if at least one update to `dv` occurred
during that call.  The flag is reset at the start of the call, so the
result is independent of its value before the call: a no-improvement call
leaves it `false` even if a previous call had set it. -/
theorem claim_C3_change_flag_fresh (links dv_adv : List (Int × Int))
    (adv_router : Int) (s s2 : DVState)
    (hok : process_advertisement links dv_adv adv_router s = .ok s2) :
    s2.dv_change = true ↔ s2.dv ≠ s.dv := by
  rw [process_advertisement_eq] at hok
  cases hr : relaxLoop links dv_adv adv_router (akeys s.dv)
      { s with dv_change := false } with
  | error e => rw [hr] at hok; cases hok
  | ok t1 =>
    rw [hr] at hok
    have hinv0 : C3Inv { s with dv_change := false } { s with dv_change := false } :=
      ⟨fun _ => rfl, fun hf => by simp at hf, fun d => Or.inl rfl⟩
    have hinv := addLoop_C3Inv (relaxLoop_C3Inv hinv0 hr) hok
    constructor
    · intro hf heq
      obtain ⟨d, hch⟩ := hinv.2.1 hf
      exact Changed_ne hch (by rw [heq])
    · intro hne
      by_contra hf
      have hff : s2.dv_change = false := by
        cases hfc : s2.dv_change with
        | true => exact absurd hfc hf
        | false => rfl
      have h0 := hinv.1 hff
      have h1 : s2.dv = ({ s with dv_change := false } : DVState).dv :=
        congrArg DVState.dv h0
      exact hne h1

/-- C3 witness: a call that improves destination 3 sets the flag; the
reported equivalence is instantiated at that call. -/
theorem claim_C3_change_flag_fresh_witness :
    (⟨[(0, 0), (3, 3), (4, 7)], [(0, 0), (3, 1), (4, 1)], true⟩ :
        DVState).dv_change = true ↔
    (⟨[(0, 0), (3, 3), (4, 7)], [(0, 0), (3, 1), (4, 1)], true⟩ :
        DVState).dv ≠ [(0, 0), (3, 10)] :=
  claim_C3_change_flag_fresh [(1, 2)] [(3, 1), (4, 5)] 1
    ⟨[(0, 0), (3, 10)], [(0, 0), (3, 3)], true⟩
    ⟨[(0, 0), (3, 3), (4, 7)], [(0, 0), (3, 1), (4, 1)], true⟩ rfl

end DV

namespace LS

theorem oLt_left_some {x y : Option Int} (h : oLt x y = true) : x ≠ none := by
  cases x with
  | none => simp [oLt] at h
  | some a => simp

theorem findMinAux_spec (dist : Int → Option Int) :
    ∀ (ks : List Int) (md mr : Option Int) (u : Int),
    findMinAux dist ks md mr = some u →
    mr = some u ∨ (u ∈ ks ∧ dist u ≠ none) := by
  intro ks
  induction ks with
  | nil =>
    intro md mr u h
    exact Or.inl h
  | cons r rest ih =>
    intro md mr u h
    unfold findMinAux at h
    by_cases hlt : oLt (dist r) md = true
    · rw [if_pos hlt] at h
      rcases ih (dist r) (some r) u h with h1 | h1
      · have hru : r = u := Option.some.inj h1
        subst hru
        exact Or.inr ⟨List.mem_cons_self _ _, oLt_left_some hlt⟩
      · exact Or.inr ⟨List.mem_cons_of_mem _ h1.1, h1.2⟩
    · rw [if_neg hlt] at h
      rcases ih md mr u h with h1 | h1
      · exact Or.inl h1
      · exact Or.inr ⟨List.mem_cons_of_mem _ h1.1, h1.2⟩

theorem WalkD_mono {selfId : Int} {prev : Int → Int} {n : Nat} {v : Int}
    (h : WalkD selfId prev n v) : ∀ m, n ≤ m → WalkD selfId prev m v := by
  induction h with
  | base n v hv hp =>
    intro m _
    exact WalkD.base m v hv hp
  | step n v hv hnm hns hsub ih =>
    intro m hm
    obtain ⟨m1, rfl⟩ : ∃ m1, m = m1 + 1 := ⟨m - 1, by omega⟩
    exact WalkD.step m1 v hv hnm hns (ih m1 (by omega))

theorem WalkD_update {selfId : Int} {prev : Int → Int} {nv : List Int}
    (hb : ∀ x, prev x ≠ -1 → prev x ∉ nv) {w : Int} (u : Int) (hw : w ∈ nv) :
    ∀ {n : Nat} {v : Int}, v ≠ w → WalkD selfId prev n v →
    WalkD selfId (Function.update prev w u) n v := by
  intro n v hv h
  induction h with
  | base n v hvs hp =>
    exact WalkD.base n v hvs (by rw [Function.update_noteq hv]; exact hp)
  | step n v hvs hnm hns hsub ih =>
    have hpw : prev v ≠ w := fun he => hb v hnm (he ▸ hw)
    refine WalkD.step n v hvs ?_ ?_ ?_
    · rw [Function.update_noteq hv]
      exact hnm
    · rw [Function.update_noteq hv]
      exact hns
    · rw [Function.update_noteq hv]
      exact ih hpw

theorem next_hop_of_walkD {selfId : Int} {prev : Int → Int}
    (hself : selfId ≠ -1) {n : Nat} {v : Int} (h : WalkD selfId prev n v) :
    ∀ fuel, n < fuel →
    ∃ m, next_hop selfId prev fuel v = .hop m ∧ prev m = selfId := by
  induction h with
  | base n v hv hp =>
    intro fuel hfuel
    obtain ⟨f, rfl⟩ : ∃ f, fuel = f + 1 := ⟨fuel - 1, by omega⟩
    refine ⟨v, ?_, hp⟩
    unfold next_hop
    rw [if_neg (by rw [hp]; exact hself), if_neg (fun he => hv he.symm),
      if_pos hp]
  | step n v hv hnm hns hsub ih =>
    intro fuel hfuel
    obtain ⟨f, rfl⟩ : ∃ f, fuel = f + 1 := ⟨fuel - 1, by omega⟩
    obtain ⟨m, hm, hms⟩ := ih f (by omega)
    refine ⟨m, ?_, hms⟩
    unfold next_hop
    rw [if_neg hnm, if_neg (fun he => hv he.symm), if_neg hns]
    exact hm

theorem relaxNeighbors_inv {selfId : Int} {ks nv2 : List Int} {b : Nat}
    {u : Int} (hkm : (-1 : Int) ∉ ks) (hu_ks : u ∈ ks)
    (hknv : ∀ x ∈ nv2, x ∈ ks) :
    ∀ (ns : List (Int × Int)) (dist : Int → Option Int) (prev : Int → Int),
    RelaxInv selfId ks nv2 b u dist prev →
    RelaxInv selfId ks nv2 b u (relaxNeighbors u nv2 ns dist prev).1
      (relaxNeighbors u nv2 ns dist prev).2 := by
  intro ns
  induction ns with
  | nil =>
    intro dist prev hinv
    exact hinv
  | cons p rest ih =>
    obtain ⟨v, cost⟩ := p
    intro dist prev hinv
    unfold relaxNeighbors
    by_cases hv : v ∈ nv2
    · rw [if_pos hv]
      by_cases himp : oLt (oAdd (dist u) cost) (dist v) = true
      · rw [if_pos himp]
        apply ih
        have hvself : v ≠ selfId := fun he => hinv.hself_not (he ▸ hv)
        have hvu : v ≠ u := fun he => hinv.hu_not (he ▸ hv)
        have huv : u ≠ v := fun he => hvu he.symm
        have hsv : selfId ≠ v := fun he => hvself he.symm
        have hvks : v ∈ ks := hknv v hv
        have hune : u ≠ -1 := fun he => hkm (he ▸ hu_ks)
        have hnewsome : oAdd (dist u) cost ≠ none := by
          cases hdu : dist u with
          | none => exact absurd hdu hinv.hdu
          | some du => simp [oAdd]
        have hb2 : ∀ x, prev x ≠ -1 → prev x ∉ nv2 :=
          fun x hx => (hinv.hprev x hx).2.2.1
        have hwalkv : WalkD selfId (Function.update prev v u) (b + 1) v := by
          rcases hinv.huOK with hu | ⟨hup, huw⟩
          · exact WalkD.base _ v hvself
              (by rw [Function.update_same]; exact hu)
          · have husne : u ≠ selfId := fun he => hup (he ▸ hinv.hself)
            refine WalkD.step b v hvself ?_ ?_ ?_
            · rw [Function.update_same]
              exact hune
            · rw [Function.update_same]
              exact husne
            · rw [Function.update_same]
              exact WalkD_update hb2 u hv huv huw
        refine ⟨?_, ?_, ?_, ?_, ?_, hinv.hu_not, hinv.hself_not, ?_⟩
        · intro x hx
          by_cases hxv : x = v
          · subst hxv
            refine ⟨hvself, hvks, ?_, ?_, hwalkv⟩
            · rw [Function.update_same]
              exact hinv.hu_not
            · rw [Function.update_same]
              exact hnewsome
          · rw [Function.update_noteq hxv] at hx
            obtain ⟨h1, h2, h3, h4, h5⟩ := hinv.hprev x hx
            refine ⟨h1, h2, ?_, ?_, ?_⟩
            · rw [Function.update_noteq hxv]
              exact h3
            · rw [Function.update_noteq hxv]
              exact h4
            · exact WalkD_update hb2 u hv hxv h5
        · rw [Function.update_noteq hsv]
          exact hinv.hself
        · intro x hxs hxd
          by_cases hxv : x = v
          · subst hxv
            rw [Function.update_same]
            exact hune
          · rw [Function.update_noteq hxv] at hxd
            rw [Function.update_noteq hxv]
            exact hinv.hfin x hxs hxd
        · rw [Function.update_noteq hsv]
          exact hinv.hdself
        · rcases hinv.huOK with hu | ⟨hup, huw⟩
          · exact Or.inl hu
          · refine Or.inr ⟨?_, ?_⟩
            · rw [Function.update_noteq huv]
              exact hup
            · exact WalkD_update hb2 u hv huv huw
        · rw [Function.update_noteq huv]
          exact hinv.hdu
      · rw [if_neg himp]
        exact ih dist prev hinv
    · rw [if_neg hv]
      exact ih dist prev hinv

theorem dijkstraStep_inv {selfId : Int} {ks : List Int} {b : Nat}
    {lsa : List (Int × List (Int × Int))} {s s1 : DState}
    (hkm : (-1 : Int) ∉ ks) (hinv : LoopInv selfId ks b s)
    (h : dijkstraStep lsa s = .ok s1) :
    LoopInv selfId ks (b + 1) s1 ∧
    s1.notVisited.length + 1 = s.notVisited.length := by
  unfold dijkstraStep at h
  split at h
  · exact absurd h (by simp)
  next u hfm =>
    injection h with h
    subst h
    have humem : u ∈ s.notVisited ∧ s.dist u ≠ none := by
      rcases findMinAux_spec s.dist s.notVisited none none u hfm with hu | hu
      · exact absurd hu (by simp)
      · exact hu
    have hu_ks : u ∈ ks := hinv.hsub u humem.1
    have hu_not : u ∉ s.notVisited.erase u :=
      fun hm => ((hinv.hnd.mem_erase_iff).mp hm).1 rfl
    have hsub2 : ∀ v ∈ s.notVisited.erase u, v ∈ ks :=
      fun v hv => hinv.hsub v (List.mem_of_mem_erase hv)
    have hself_not2 : selfId ∉ s.notVisited.erase u := by
      rcases hinv.hinit with hl | hr
      · exact fun hm => hl (List.mem_of_mem_erase hm)
      · have hus : u = selfId := by
          by_contra hne
          exact humem.2 (hr u hne)
        subst hus
        exact hu_not
    have huOK : u = selfId ∨ (s.prev u ≠ -1 ∧ WalkD selfId s.prev b u) := by
      by_cases hus : u = selfId
      · exact Or.inl hus
      · have hp := hinv.hfin u hus humem.2
        exact Or.inr ⟨hp, (hinv.hprev u hp).2.2.2.2⟩
    have hrinv : RelaxInv selfId ks (s.notVisited.erase u) b u s.dist s.prev := by
      refine ⟨fun v hv => ?_, hinv.hself, hinv.hfin, hinv.hdself, huOK,
        hu_not, hself_not2, humem.2⟩
      obtain ⟨h1, h2, h3, h4, h5⟩ := hinv.hprev v hv
      exact ⟨h1, h2, fun hm => h3 (List.mem_of_mem_erase hm), h4,
        WalkD_mono h5 (b + 1) (Nat.le_succ b)⟩
    have hres := relaxNeighbors_inv hkm hu_ks hsub2
      ((alookup lsa u).getD []) s.dist s.prev hrinv
    constructor
    · exact ⟨hinv.hnd.erase u, hsub2, hres.hself, Or.inl hself_not2,
        hres.hdself,
        fun v hv => by
          obtain ⟨h1, h2, h3, h4, h5⟩ := hres.hprev v hv
          exact ⟨h1, h2, h3, h4, h5⟩,
        hres.hfin⟩
    · show (s.notVisited.erase u).length + 1 = s.notVisited.length
      rw [List.length_erase_of_mem humem.1]
      have : 0 < s.notVisited.length :=
        List.length_pos.mpr (List.ne_nil_of_mem humem.1)
      omega

theorem dijkstraLoop_inv {selfId : Int} {ks : List Int}
    {lsa : List (Int × List (Int × Int))} (hkm : (-1 : Int) ∉ ks) :
    ∀ (fuel : Nat) (s : DState) (b : Nat) (t : DState),
    LoopInv selfId ks b s → dijkstraLoop lsa fuel s = .ok t →
    LoopInv selfId ks (b + s.notVisited.length) t ∧ t.notVisited = [] := by
  intro fuel
  induction fuel with
  | zero =>
    intro s b t hinv h
    unfold dijkstraLoop at h
    by_cases he : s.notVisited.isEmpty
    · rw [if_pos he] at h
      injection h with h
      subst h
      have hnil : s.notVisited = [] := List.isEmpty_iff.mp he
      rw [hnil]
      exact ⟨by simpa using hinv, rfl⟩
    · rw [if_neg he] at h
      cases h
  | succ fuel ih =>
    intro s b t hinv h
    unfold dijkstraLoop at h
    by_cases he : s.notVisited.isEmpty
    · rw [if_pos he] at h
      injection h with h
      subst h
      have hnil : s.notVisited = [] := List.isEmpty_iff.mp he
      rw [hnil]
      exact ⟨by simpa using hinv, rfl⟩
    · rw [if_neg he] at h
      cases hs : dijkstraStep lsa s with
      | error e => rw [hs] at h; cases h
      | ok s2 =>
        rw [hs] at h
        obtain ⟨hinv1, hlen⟩ := dijkstraStep_inv hkm hinv hs
        obtain ⟨hres, hnil⟩ := ih s2 (b + 1) t hinv1 h
        refine ⟨?_, hnil⟩
        have harith : b + 1 + s2.notVisited.length = b + s.notVisited.length := by
          omega
        rw [← harith]
        exact hres

theorem initDState_inv {selfId : Int} {lsa : List (Int × List (Int × Int))}
    (hnd : (akeys lsa).Nodup) :
    LoopInv selfId (akeys lsa) 0 (initDState lsa selfId) := by
  refine ⟨hnd, fun v hv => hv, rfl, Or.inr ?_, ?_, ?_, ?_⟩
  · intro v hvs
    show (if v = selfId then some 0 else none) = none
    rw [if_neg hvs]
  · show (if selfId = selfId then some 0 else none) ≠ none
    rw [if_pos rfl]
    simp
  · intro v hv
    exact absurd rfl hv
  · intro v hvs hvd
    refine absurd ?_ hvd
    show (if v = selfId then some 0 else none) = none
    rw [if_neg hvs]

theorem dijkstra_core_inv {selfId : Int} {lsa : List (Int × List (Int × Int))}
    {t : DState} (hnd : (akeys lsa).Nodup) (hkm : (-1 : Int) ∉ akeys lsa)
    (h : dijkstra_core lsa selfId = .ok t) :
    LoopInv selfId (akeys lsa) (akeys lsa).length t ∧ t.notVisited = [] := by
  have hr := dijkstraLoop_inv hkm (akeys lsa).length (initDState lsa selfId) 0 t
    (initDState_inv hnd) h
  simpa using hr

theorem buildFwd_pres {selfId : Int} {prev : Int → Int} {fuel : Nat} {r : Int} :
    ∀ (ks : List Int) (fwd0 fwd : List (Int × Int)), r ∉ ks →
    buildFwd selfId prev fuel ks fwd0 = .ok fwd →
    alookup fwd r = alookup fwd0 r := by
  intro ks
  induction ks with
  | nil =>
    intro fwd0 fwd _ h
    injection h with h
    subst h
    rfl
  | cons k rest ih =>
    intro fwd0 fwd hr h
    unfold buildFwd at h
    have hkr : r ≠ k := fun he => hr (he ▸ List.mem_cons_self _ _)
    have hrest : r ∉ rest := fun hm => hr (List.mem_cons_of_mem _ hm)
    by_cases hc : k ≠ selfId ∧ prev k ≠ -1
    · rw [if_pos hc] at h
      cases hn : next_hop selfId prev fuel k with
      | hop n =>
        simp only [hn] at h
        rw [ih (aset k n fwd0) fwd hrest h, alookup_aset_ne _ _ hkr]
      | assertFail =>
        simp only [hn] at h
        exact absurd h (by simp)
      | outOfFuel =>
        simp only [hn] at h
        exact absurd h (by simp)
    · rw [if_neg hc] at h
      exact ih fwd0 fwd hrest h

theorem buildFwd_mem {selfId : Int} {prev : Int → Int} {fuel : Nat} :
    ∀ (ks : List Int) (fwd0 fwd : List (Int × Int)), ks.Nodup →
    buildFwd selfId prev fuel ks fwd0 = .ok fwd →
    ∀ r ∈ ks, r ≠ selfId → prev r ≠ -1 →
    ∃ m, next_hop selfId prev fuel r = .hop m ∧ alookup fwd r = some m := by
  intro ks
  induction ks with
  | nil =>
    intro _ _ _ _ r hr
    exact absurd hr (List.not_mem_nil r)
  | cons k rest ih =>
    intro fwd0 fwd hnd h r hr hrs hrp
    unfold buildFwd at h
    by_cases hc : k ≠ selfId ∧ prev k ≠ -1
    · rw [if_pos hc] at h
      cases hn : next_hop selfId prev fuel k with
      | hop n =>
        simp only [hn] at h
        rcases List.mem_cons.mp hr with hrk | hrk
        · subst hrk
          refine ⟨n, hn, ?_⟩
          rw [buildFwd_pres rest _ fwd (List.nodup_cons.mp hnd).1 h,
            alookup_aset_self]
        · exact ih (aset k n fwd0) fwd (List.nodup_cons.mp hnd).2 h r hrk hrs hrp
      | assertFail =>
        simp only [hn] at h
        exact absurd h (by simp)
      | outOfFuel =>
        simp only [hn] at h
        exact absurd h (by simp)
    · rw [if_neg hc] at h
      rcases List.mem_cons.mp hr with hrk | hrk
      · subst hrk
        exact absurd ⟨hrs, hrp⟩ hc
      · exact ih fwd0 fwd (List.nodup_cons.mp hnd).2 h r hrk hrs hrp

theorem buildFwd_skip {selfId : Int} {prev : Int → Int} {fuel : Nat} {r : Int}
    (hr : r = selfId ∨ prev r = -1) :
    ∀ (ks : List Int) (fwd0 fwd : List (Int × Int)),
    buildFwd selfId prev fuel ks fwd0 = .ok fwd →
    alookup fwd r = alookup fwd0 r := by
  intro ks
  induction ks with
  | nil =>
    intro fwd0 fwd h
    injection h with h
    subst h
    rfl
  | cons k rest ih =>
    intro fwd0 fwd h
    unfold buildFwd at h
    by_cases hc : k ≠ selfId ∧ prev k ≠ -1
    · rw [if_pos hc] at h
      have hkr : r ≠ k := by
        intro he
        subst he
        rcases hr with hr | hr
        · exact hc.1 hr
        · exact hc.2 hr
      cases hn : next_hop selfId prev fuel k with
      | hop n =>
        simp only [hn] at h
        rw [ih (aset k n fwd0) fwd h, alookup_aset_ne _ _ hkr]
      | assertFail =>
        simp only [hn] at h
        exact absurd h (by simp)
      | outOfFuel =>
        simp only [hn] at h
        exact absurd h (by simp)
    · rw [if_neg hc] at h
      exact ih fwd0 fwd h

/-- C4: after a completed run of `dijkstras_algorithm` on an LS router whose
forwarding table starts empty: every destination other than self with a
finite computed distance gets a forwarding entry equal to the result of the
`next_hop` predecessor walk, the walk terminates (returns `hop m`, no
assertion failure, within fuel `|keys| + 1`), and the returned next hop `m`
is adjacent to self on the shortest-path tree (`prev m = self`); every
destination with infinite computed distance gets no forwarding entry at
all. -/
theorem claim_C4_next_hop_and_omission (lsa : List (Int × List (Int × Int)))
    (selfId : Int) (s s1 : LSState) (d : DState)
    (hnd : (akeys lsa).Nodup) (hsne : selfId ≠ -1)
    (hkm : (-1 : Int) ∉ akeys lsa)
    (hlsa : s.lsa_dict = lsa) (hfwd0 : s.fwd_table = [])
    (hcore : dijkstra_core lsa selfId = .ok d)
    (halg : dijkstras_algorithm selfId s = .ok s1) :
    (∀ dst, dst ≠ selfId → d.dist dst ≠ none →
      ∃ m, next_hop selfId d.prev ((akeys lsa).length + 1) dst = .hop m ∧
        alookup s1.fwd_table dst = some m ∧ d.prev m = selfId) ∧
    (∀ dst, d.dist dst = none → alookup s1.fwd_table dst = none) := by
  unfold dijkstras_algorithm at halg
  rw [hlsa] at halg
  simp only [hcore] at halg
  cases hb : buildFwd selfId d.prev ((akeys lsa).length + 1) (akeys lsa)
      s.fwd_table with
  | error e =>
    rw [hb] at halg
    exact absurd halg (by simp)
  | ok fwd =>
    rw [hb] at halg
    injection halg with halg
    subst halg
    rw [hfwd0] at hb
    obtain ⟨hinv, hnil⟩ := dijkstra_core_inv hnd hkm hcore
    constructor
    · intro dst hds hdd
      have hp : d.prev dst ≠ -1 := hinv.hfin dst hds hdd
      obtain ⟨h1, h2, h3, h4, h5⟩ := hinv.hprev dst hp
      obtain ⟨m, hm, hmp⟩ :=
        next_hop_of_walkD hsne h5 ((akeys lsa).length + 1) (by omega)
      obtain ⟨m2, hm2, hl2⟩ := buildFwd_mem (akeys lsa) [] fwd hnd hb dst h2 hds hp
      have hmm : m = m2 := NHResult.hop.inj (hm.symm.trans hm2)
      refine ⟨m, hm, ?_, hmp⟩
      show alookup fwd dst = some m
      rw [hmm]
      exact hl2
    · intro dst hdd
      have hds : dst ≠ selfId := fun he => hinv.hdself (he ▸ hdd)
      have hp : d.prev dst = -1 := by
        by_contra hne
        exact (hinv.hprev dst hne).2.2.2.1 hdd
      have hskip := buildFwd_skip (Or.inr hp) (akeys lsa) [] fwd hb
      show alookup fwd dst = none
      rw [hskip]
      rfl

/-- C4 witness: the spec's triangle (self = 0, costs 0-1 = 1, 1-2 = 1,
0-2 = 5): destination 2 has finite distance 2, the walk returns next hop 1
(adjacent to 0) and `fwd_table[2] = 1`; destination 3 has infinite distance
and gets no entry. -/
theorem claim_C4_next_hop_and_omission_witness :
    ∃ (d : DState) (s1 : LSState),
      dijkstra_core [(0, [(1, 1), (2, 5)]), (1, [(0, 1), (2, 1)]),
        (2, [(0, 5), (1, 1)])] 0 = .ok d ∧
      dijkstras_algorithm 0
        ⟨[(0, [(1, 1), (2, 5)]), (1, [(0, 1), (2, 1)]), (2, [(0, 5), (1, 1)])],
         [(0, false)], false, false, []⟩ = .ok s1 ∧
      (∃ m, next_hop 0 d.prev 4 2 = .hop m ∧
        alookup s1.fwd_table 2 = some m ∧ d.prev m = 0) ∧
      alookup s1.fwd_table 3 = none := by
  refine ⟨_, _, rfl, rfl, ?_, ?_⟩
  · exact (claim_C4_next_hop_and_omission
      [(0, [(1, 1), (2, 5)]), (1, [(0, 1), (2, 1)]), (2, [(0, 5), (1, 1)])] 0
      ⟨[(0, [(1, 1), (2, 5)]), (1, [(0, 1), (2, 1)]), (2, [(0, 5), (1, 1)])],
       [(0, false)], false, false, []⟩ _ _
      (by decide) (by decide) (by decide) rfl rfl rfl rfl).1 2
      (by decide) (by decide)
  · exact (claim_C4_next_hop_and_omission
      [(0, [(1, 1), (2, 5)]), (1, [(0, 1), (2, 1)]), (2, [(0, 5), (1, 1)])] 0
      ⟨[(0, [(1, 1), (2, 5)]), (1, [(0, 1), (2, 1)]), (2, [(0, 5), (1, 1)])],
       [(0, false)], false, false, []⟩ _ _
      (by decide) (by decide) (by decide) rfl rfl rfl rfl).2 3 (by decide)

theorem countOut_append (x : LSOut) (a b : List LSOut) :
    countOut x (a ++ b) = countOut x a + countOut x b := by
  induction a with
  | nil => simp [countOut]
  | cons y rest ih =>
    rw [List.cons_append]
    show (if y = x then 1 else 0) + countOut x (rest ++ b) =
      ((if y = x then 1 else 0) + countOut x rest) + countOut x b
    rw [ih]
    omega

theorem runLS_nil (selfId : Int) (s : LSState) :
    runLS selfId [] s = ([], some s) := rfl

theorem runLS_cons_none {selfId : Int} {e : LSEvent} {s : LSState}
    {ems : List LSOut} (rest : List LSEvent)
    (h : stepEvent selfId e s = (ems, none)) :
    runLS selfId (e :: rest) s = (ems, none) := by
  unfold runLS
  rw [h]

theorem runLS_cons_some {selfId : Int} {e : LSEvent} {s : LSState}
    {ems : List LSOut} {s1 : LSState} (rest : List LSEvent)
    (h : stepEvent selfId e s = (ems, some s1)) :
    runLS selfId (e :: rest) s =
      (ems ++ (runLS selfId rest s1).1, (runLS selfId rest s1).2) := by
  simp only [runLS, h]

theorem run_one_tick_computed (selfId : Int) (c : Nat) {s : LSState}
    (h : s.routes_computed = true) (hc : BROADCAST_INTERVAL ≤ c) :
    run_one_tick selfId c s = ([], some s) := by
  unfold run_one_tick
  rw [if_neg (by simp [h]), if_neg (by omega)]

theorem run_one_tick_flood (selfId : Int) {c : Nat} (s : LSState)
    (hc : c < BROADCAST_INTERVAL) :
    run_one_tick selfId c s =
      ((floodPass s.lsa_dict s.broadcasted).1,
       some { s with broadcasted := (floodPass s.lsa_dict s.broadcasted).2 }) := by
  unfold run_one_tick
  rw [if_neg
    (fun hcon : BROADCAST_INTERVAL ≤ c ∧ s.routes_computed = false =>
      absurd hcon.1 (by omega)), if_pos hc]

/-- C2 (code bug): the main loop of `dijkstras_algorithm` does NOT
terminate cleanly when no unvisited node has finite tentative distance.
With `lsa_dict = {0: {1: 1}, 1: {0: 1}, 2: {}}` at router 0 — router 2 is a
key of `lsa_dict` but unreachable from 0 — after visiting 0 and 1 every
remaining tentative distance is infinite, the selection scan leaves
`min_router = None`, and `not_visited.remove(None)` raises `KeyError`
(embedded as `DijErr.noneMin`) instead of terminating. -/
theorem claim_C2_dijkstra_unreachable_key_raises :
    dijkstra_core [(0, [(1, 1)]), (1, [(0, 1)]), (2, [])] 0 =
      .error .noneMin := rfl

/-- C9: `next_hop(dst, prev)` fails an assertion when `prev[dst]` is the
no-predecessor marker `-1`, and when `dst` is the router itself; for any
`dst` whose predecessor chain reaches a direct child of self (`WalkD`), it
returns a next hop `m` with `prev[m] = self` without violating an
assertion, for every fuel larger than the chain length. -/
theorem claim_C9_next_hop_asserts (selfId : Int) :
    (∀ (prev : Int → Int) (dst : Int) (fuel : Nat), prev dst = -1 →
      next_hop selfId prev (fuel + 1) dst = .assertFail) ∧
    (∀ (prev : Int → Int) (fuel : Nat),
      next_hop selfId prev (fuel + 1) selfId = .assertFail) ∧
    (∀ (prev : Int → Int) (dst : Int) (n : Nat), selfId ≠ -1 →
      WalkD selfId prev n dst → ∀ fuel, n < fuel →
      ∃ m, next_hop selfId prev fuel dst = .hop m ∧ prev m = selfId) := by
  refine ⟨?_, ?_, ?_⟩
  · intro prev dst fuel h
    unfold next_hop
    rw [if_pos h]
  · intro prev fuel
    unfold next_hop
    by_cases h : prev selfId = -1
    · rw [if_pos h]
    · rw [if_neg h, if_pos rfl]
  · intro prev dst n hself hw
    exact next_hop_of_walkD hself hw

/-- C9 witness: with self = 0 and the predecessor map sending 2 to 0 and
everything else to -1: `next_hop` on 3 (no predecessor) and on 0 (self)
hits an assertion; on 2 it returns 2, whose predecessor is self. -/
theorem claim_C9_next_hop_asserts_witness :
    next_hop 0 (fun v => if v = 2 then 0 else -1) 1 3 = .assertFail ∧
    next_hop 0 (fun v => if v = 2 then 0 else -1) 1 0 = .assertFail ∧
    ∃ m, next_hop 0 (fun v => if v = 2 then 0 else -1) 1 2 = .hop m ∧
      (fun v : Int => if v = 2 then 0 else -1) m = 0 := by
  have h := claim_C9_next_hop_asserts 0
  exact ⟨h.1 _ 3 0 rfl, h.2.1 _ 0,
    h.2.2 _ 2 0 (by decide) (WalkD.base 0 2 (by decide) rfl) 1 (by decide)⟩

theorem run_one_tick_compute_err {selfId : Int} {c : Nat} {s : LSState}
    {err : DijErr} (hf : s.routes_computed = false) (hc : BROADCAST_INTERVAL ≤ c)
    (he : dijkstras_algorithm selfId { s with broadcast_complete := true } =
      .error err) :
    run_one_tick selfId c s = ([.dijk], none) := by
  unfold run_one_tick
  rw [if_pos ⟨hc, hf⟩, he]

theorem run_one_tick_compute_ok {selfId : Int} {c : Nat} {s s1 : LSState}
    (hf : s.routes_computed = false) (hc : BROADCAST_INTERVAL ≤ c)
    (hok : dijkstras_algorithm selfId { s with broadcast_complete := true } =
      .ok s1) :
    run_one_tick selfId c s =
      ([.dijk], some { s1 with routes_computed := true }) := by
  unfold run_one_tick
  rw [if_pos ⟨hc, hf⟩, hok]

theorem floodPass_no_dijk (lsa : List (Int × List (Int × Int)))
    (b : List (Int × Bool)) : countOut .dijk (floodPass lsa b).1 = 0 := by
  induction lsa generalizing b with
  | nil => rfl
  | cons p rest ih =>
    obtain ⟨r, ad⟩ := p
    unfold floodPass
    by_cases hb : alookup b r = some true
    · rw [if_pos hb]
      exact ih b
    · rw [if_neg hb]
      show (if LSOut.flood r = LSOut.dijk then 1 else 0) +
        countOut .dijk (floodPass rest (aset r true b)).1 = 0
      rw [if_neg (by simp), ih]

theorem stepEvent_computed (selfId : Int) {s : LSState} (e : LSEvent)
    (h : s.routes_computed = true) :
    countOut .dijk (stepEvent selfId e s).1 = 0 ∧
    ∃ s1, (stepEvent selfId e s).2 = some s1 ∧ s1.routes_computed = true := by
  cases e with
  | recv o lsa => exact ⟨rfl, _, rfl, h⟩
  | tick c =>
    by_cases hc : BROADCAST_INTERVAL ≤ c
    · have hst : stepEvent selfId (LSEvent.tick c) s = ([], some s) :=
        run_one_tick_computed selfId c h hc
      rw [hst]
      exact ⟨rfl, s, rfl, h⟩
    · have hst : stepEvent selfId (LSEvent.tick c) s =
          ((floodPass s.lsa_dict s.broadcasted).1,
           some { s with broadcasted := (floodPass s.lsa_dict s.broadcasted).2 }) :=
        run_one_tick_flood selfId s (by omega)
      rw [hst]
      exact ⟨floodPass_no_dijk _ _, _, rfl, h⟩

theorem stepEvent_nonqual {selfId : Int} {s : LSState} (e : LSEvent)
    (hf : s.routes_computed = false)
    (hne : ∀ c, e = LSEvent.tick c → c < BROADCAST_INTERVAL) :
    countOut .dijk (stepEvent selfId e s).1 = 0 ∧
    ∃ s1, (stepEvent selfId e s).2 = some s1 ∧ s1.routes_computed = false := by
  cases e with
  | recv o lsa => exact ⟨rfl, _, rfl, hf⟩
  | tick c =>
    have hc : c < BROADCAST_INTERVAL := hne c rfl
    have hst : stepEvent selfId (LSEvent.tick c) s =
        ((floodPass s.lsa_dict s.broadcasted).1,
         some { s with broadcasted := (floodPass s.lsa_dict s.broadcasted).2 }) :=
      run_one_tick_flood selfId s hc
    rw [hst]
    exact ⟨floodPass_no_dijk _ _, _, rfl, hf⟩

theorem runLS_computed_no_dijk {selfId : Int} (events : List LSEvent)
    (s : LSState) (h : s.routes_computed = true) :
    countOut .dijk (runLS selfId events s).1 = 0 := by
  induction events generalizing s with
  | nil => rfl
  | cons e rest ih =>
    obtain ⟨hcount, s1, hsome, hflag⟩ := stepEvent_computed selfId e h
    have hp : stepEvent selfId e s = ((stepEvent selfId e s).1, some s1) := by
      rw [← hsome]
    rw [runLS_cons_some rest hp, countOut_append, hcount, ih s1 hflag]

/-- C7: `dijkstras_algorithm` executes exactly once per LS router.  (i) Over
any event sequence containing a tick with clock ≥ `BROADCAST_INTERVAL`,
starting with `routes_computed = false`, exactly one Dijkstra invocation is
emitted (even if the invocation crashes, the router is dead afterwards);
(ii) the first qualifying tick runs it and sets `routes_computed`; (iii) a
qualifying tick with `routes_computed` already true changes nothing and
emits nothing. -/
theorem claim_C7_dijkstra_once (selfId : Int) :
    (∀ (events : List LSEvent) (s : LSState), s.routes_computed = false →
      (∃ c, LSEvent.tick c ∈ events ∧ BROADCAST_INTERVAL ≤ c) →
      countOut .dijk (runLS selfId events s).1 = 1) ∧
    (∀ (c : Nat) (s : LSState), s.routes_computed = false →
      BROADCAST_INTERVAL ≤ c →
      (run_one_tick selfId c s).1 = [.dijk] ∧
      ∀ s1, (run_one_tick selfId c s).2 = some s1 → s1.routes_computed = true) ∧
    (∀ (c : Nat) (s : LSState), s.routes_computed = true →
      BROADCAST_INTERVAL ≤ c →
      run_one_tick selfId c s = ([], some s)) := by
  refine ⟨?_, ?_, ?_⟩
  · intro events
    induction events with
    | nil =>
      intro s hf hex
      obtain ⟨c, hmem, _⟩ := hex
      exact absurd hmem (List.not_mem_nil _)
    | cons e rest ih =>
      intro s hf hex
      by_cases he : ∃ c, e = LSEvent.tick c ∧ BROADCAST_INTERVAL ≤ c
      · obtain ⟨c, rfl, hc⟩ := he
        cases halg : dijkstras_algorithm selfId
            { s with broadcast_complete := true } with
        | error err =>
          have hp : stepEvent selfId (.tick c) s = ([.dijk], none) :=
            run_one_tick_compute_err hf hc halg
          rw [runLS_cons_none rest hp]
          rfl
        | ok s1 =>
          have hp : stepEvent selfId (.tick c) s =
              ([.dijk], some { s1 with routes_computed := true }) :=
            run_one_tick_compute_ok hf hc halg
          rw [runLS_cons_some rest hp, countOut_append,
            runLS_computed_no_dijk rest _ rfl]
          rfl
      · have hne : ∀ c, e = LSEvent.tick c → c < BROADCAST_INTERVAL := by
          intro c hec
          by_contra hcc
          exact he ⟨c, hec, by omega⟩
        obtain ⟨hcount, s1, hsome, hflag⟩ := stepEvent_nonqual e hf hne
        have hp : stepEvent selfId e s = ((stepEvent selfId e s).1, some s1) := by
          rw [← hsome]
        have hex1 : ∃ c, LSEvent.tick c ∈ rest ∧ BROADCAST_INTERVAL ≤ c := by
          obtain ⟨c, hmem, hc⟩ := hex
          rcases List.mem_cons.mp hmem with hmem | hmem
          · exact absurd ⟨c, hmem.symm, hc⟩ he
          · exact ⟨c, hmem, hc⟩
        rw [runLS_cons_some rest hp, countOut_append, hcount, ih s1 hflag hex1]
  · intro c s hf hc
    cases halg : dijkstras_algorithm selfId
        { s with broadcast_complete := true } with
    | error err =>
      rw [run_one_tick_compute_err hf hc halg]
      exact ⟨rfl, fun s1 h => by cases h⟩
    | ok s1 =>
      rw [run_one_tick_compute_ok hf hc halg]
      refine ⟨rfl, fun s2 h => ?_⟩
      have : ({ s1 with routes_computed := true } : LSState) = s2 :=
        Option.some.inj h
      rw [← this]
  · intro c s h hc
    exact run_one_tick_computed selfId c h hc

/-- C7 witness: ticks 0, 1000, 1001 on a router with a single-node topology:
exactly one Dijkstra invocation is emitted; a qualifying tick on the
computed state is a no-op. -/
theorem claim_C7_dijkstra_once_witness :
    countOut .dijk (runLS 0 [.tick 0, .tick 1000, .tick 1001]
      ⟨[(0, [(1, 1)])], [(0, false)], false, false, []⟩).1 = 1 ∧
    run_one_tick 0 1001
      ⟨[(0, [(1, 1)])], [(0, true)], true, true, []⟩ =
      ([], some ⟨[(0, [(1, 1)])], [(0, true)], true, true, []⟩) := by
  have h := claim_C7_dijkstra_once 0
  exact ⟨h.1 [.tick 0, .tick 1000, .tick 1001]
      ⟨[(0, [(1, 1)])], [(0, false)], false, false, []⟩ rfl
      ⟨1000, by decide, by decide⟩,
    h.2.2 1001 ⟨[(0, [(1, 1)])], [(0, true)], true, true, []⟩ rfl (by decide)⟩

theorem floodPass_not_mem {o : Int} (lsa : List (Int × List (Int × Int)))
    (b : List (Int × Bool)) (h : o ∉ akeys lsa) :
    countOut (.flood o) (floodPass lsa b).1 = 0 := by
  induction lsa generalizing b with
  | nil => rfl
  | cons p rest ih =>
    obtain ⟨r, ad⟩ := p
    rw [show akeys ((r, ad) :: rest) = r :: akeys rest from rfl] at h
    have hro : r ≠ o := fun he => h (by rw [← he]; exact List.mem_cons_self _ _)
    have hrest : o ∉ akeys rest := fun hm => h (List.mem_cons_of_mem _ hm)
    unfold floodPass
    by_cases hb : alookup b r = some true
    · rw [if_pos hb]
      exact ih b hrest
    · rw [if_neg hb]
      show (if LSOut.flood r = LSOut.flood o then 1 else 0) +
        countOut (.flood o) (floodPass rest (aset r true b)).1 = 0
      rw [if_neg (by simp [hro]), ih _ hrest]

theorem floodPass_count_le_one {o : Int} (lsa : List (Int × List (Int × Int)))
    (b : List (Int × Bool)) (h : (akeys lsa).Nodup) :
    countOut (.flood o) (floodPass lsa b).1 ≤ 1 := by
  induction lsa generalizing b with
  | nil => exact Nat.zero_le 1
  | cons p rest ih =>
    obtain ⟨r, ad⟩ := p
    rw [show akeys ((r, ad) :: rest) = r :: akeys rest from rfl,
      List.nodup_cons] at h
    unfold floodPass
    by_cases hb : alookup b r = some true
    · rw [if_pos hb]
      exact ih b h.2
    · rw [if_neg hb]
      show (if LSOut.flood r = LSOut.flood o then 1 else 0) +
        countOut (.flood o) (floodPass rest (aset r true b)).1 ≤ 1
      by_cases hro : r = o
      · subst hro
        rw [if_pos rfl, floodPass_not_mem rest _ h.1]
      · rw [if_neg (by simp [hro])]
        have := ih (aset r true b) h.2
        omega

theorem floodPass_true_zero {o : Int} (lsa : List (Int × List (Int × Int)))
    (b : List (Int × Bool)) (h : alookup b o = some true) :
    countOut (.flood o) (floodPass lsa b).1 = 0 := by
  induction lsa generalizing b with
  | nil => rfl
  | cons p rest ih =>
    obtain ⟨r, ad⟩ := p
    unfold floodPass
    by_cases hb : alookup b r = some true
    · rw [if_pos hb]
      exact ih b h
    · rw [if_neg hb]
      have hro : r ≠ o := fun he => hb (he ▸ h)
      show (if LSOut.flood r = LSOut.flood o then 1 else 0) +
        countOut (.flood o) (floodPass rest (aset r true b)).1 = 0
      rw [if_neg (by simp [hro]),
        ih (aset r true b) (by rw [alookup_aset_ne _ _ (Ne.symm hro)]; exact h)]

theorem floodPass_true_mono {o : Int} (lsa : List (Int × List (Int × Int)))
    (b : List (Int × Bool)) (h : alookup b o = some true) :
    alookup (floodPass lsa b).2 o = some true := by
  induction lsa generalizing b with
  | nil => exact h
  | cons p rest ih =>
    obtain ⟨r, ad⟩ := p
    unfold floodPass
    by_cases hb : alookup b r = some true
    · rw [if_pos hb]
      exact ih b h
    · rw [if_neg hb]
      show alookup (floodPass rest (aset r true b)).2 o = some true
      by_cases hro : r = o
      · subst hro
        exact ih _ (alookup_aset_self _ _ _)
      · exact ih _ (by rw [alookup_aset_ne _ _ (Ne.symm hro)]; exact h)

theorem floodPass_emitted_true {o : Int} (lsa : List (Int × List (Int × Int)))
    (b : List (Int × Bool))
    (h : 1 ≤ countOut (.flood o) (floodPass lsa b).1) :
    alookup (floodPass lsa b).2 o = some true := by
  induction lsa generalizing b with
  | nil => exact absurd h (by simp [floodPass, countOut])
  | cons p rest ih =>
    obtain ⟨r, ad⟩ := p
    unfold floodPass at h ⊢
    by_cases hb : alookup b r = some true
    · rw [if_pos hb] at h ⊢
      exact ih b h
    · rw [if_neg hb] at h ⊢
      by_cases hro : r = o
      · subst hro
        exact floodPass_true_mono rest _ (alookup_aset_self _ _ _)
      · rw [show countOut (.flood o) ((floodPass rest (aset r true b)).1.cons
            (.flood r)) = (if LSOut.flood r = LSOut.flood o then 1 else 0) +
            countOut (.flood o) (floodPass rest (aset r true b)).1 from rfl,
          if_neg (by simp [hro])] at h
        exact ih (aset r true b) (by omega)

theorem dijkstras_algorithm_fields {selfId : Int} {t t1 : LSState}
    (h : dijkstras_algorithm selfId t = .ok t1) :
    t1.lsa_dict = t.lsa_dict ∧ t1.broadcasted = t.broadcasted ∧
    t1.routes_computed = true := by
  unfold dijkstras_algorithm at h
  split at h
  · exact absurd h (by simp)
  · split at h
    · exact absurd h (by simp)
    · injection h with h
      subst h
      exact ⟨rfl, rfl, rfl⟩

theorem stepEvent_none_no_flood {selfId : Int} {s : LSState} {e : LSEvent}
    {ems : List LSOut} (h : stepEvent selfId e s = (ems, none)) (o : Int) :
    countOut (.flood o) ems = 0 := by
  cases e with
  | recv o2 lsa =>
    have h2 : (some { s with lsa_dict := aset o2 lsa s.lsa_dict } :
        Option LSState) = none := congrArg Prod.snd h
    exact absurd h2 (by simp)
  | tick c =>
    by_cases hcf : BROADCAST_INTERVAL ≤ c ∧ s.routes_computed = false
    · cases halg : dijkstras_algorithm selfId
          { s with broadcast_complete := true } with
      | error err =>
        have hp := run_one_tick_compute_err hcf.2 hcf.1 halg
        have he : ems = [.dijk] := by
          have := congrArg Prod.fst (hp.symm.trans h)
          exact this.symm
        rw [he]
        rfl
      | ok s1 =>
        have hp := run_one_tick_compute_ok hcf.2 hcf.1 halg
        have h2 := congrArg Prod.snd (hp.symm.trans h)
        exact absurd h2 (by simp)
    · by_cases hc : c < BROADCAST_INTERVAL
      · have hp := run_one_tick_flood selfId s hc
        have h2 := congrArg Prod.snd (hp.symm.trans h)
        exact absurd h2 (by simp)
      · have hfl : s.routes_computed = true := by
          cases hx : s.routes_computed with
          | false =>
            exact absurd (⟨by omega, hx⟩ :
              BROADCAST_INTERVAL ≤ c ∧ s.routes_computed = false) hcf
          | true => rfl
        have hp := run_one_tick_computed selfId c hfl (by omega)
        have h2 := congrArg Prod.snd (hp.symm.trans h)
        exact absurd h2 (by simp)

theorem stepEvent_some_props {selfId : Int} {s : LSState} {e : LSEvent}
    {ems : List LSOut} {s1 : LSState}
    (h : stepEvent selfId e s = (ems, some s1)) (o : Int) :
    ((akeys s.lsa_dict).Nodup → (akeys s1.lsa_dict).Nodup) ∧
    ((akeys s.lsa_dict).Nodup → countOut (.flood o) ems ≤ 1) ∧
    (alookup s.broadcasted o = some true →
      countOut (.flood o) ems = 0 ∧ alookup s1.broadcasted o = some true) ∧
    (1 ≤ countOut (.flood o) ems → alookup s1.broadcasted o = some true) := by
  cases e with
  | recv o2 lsa =>
    have h1 : ([] : List LSOut) = ems := congrArg Prod.fst h
    have h2 : ({ s with lsa_dict := aset o2 lsa s.lsa_dict } : LSState) = s1 :=
      Option.some.inj (congrArg Prod.snd h)
    subst h2
    rw [← h1]
    exact ⟨fun hnd => akeys_aset_nodup _ _ hnd, fun _ => by simp [countOut],
      fun hb => ⟨rfl, hb⟩, fun habs => absurd habs (by simp [countOut])⟩
  | tick c =>
    by_cases hcf : BROADCAST_INTERVAL ≤ c ∧ s.routes_computed = false
    · cases halg : dijkstras_algorithm selfId
          { s with broadcast_complete := true } with
      | error err =>
        have hp := run_one_tick_compute_err hcf.2 hcf.1 halg
        have h2 := congrArg Prod.snd (hp.symm.trans h)
        exact absurd h2 (by simp)
      | ok s2 =>
        have hp := run_one_tick_compute_ok hcf.2 hcf.1 halg
        have h1 : ([LSOut.dijk] : List LSOut) = ems :=
          congrArg Prod.fst (hp.symm.trans h)
        have h2 : ({ s2 with routes_computed := true } : LSState) = s1 :=
          Option.some.inj (congrArg Prod.snd (hp.symm.trans h))
        obtain ⟨hl, hbr, _⟩ := dijkstras_algorithm_fields halg
        subst h2
        rw [← h1]
        refine ⟨fun hnd => ?_, fun _ => by simp [countOut],
          fun hb => ⟨rfl, ?_⟩, fun habs => absurd habs (by simp [countOut])⟩
        · show (akeys s2.lsa_dict).Nodup
          rw [hl]
          exact hnd
        · show alookup s2.broadcasted o = some true
          rw [hbr]
          exact hb
    · by_cases hc : c < BROADCAST_INTERVAL
      · have hp := run_one_tick_flood selfId s hc
        have h1 : (floodPass s.lsa_dict s.broadcasted).1 = ems :=
          congrArg Prod.fst (hp.symm.trans h)
        have h2 : ({ s with
            broadcasted := (floodPass s.lsa_dict s.broadcasted).2 } : LSState) =
            s1 := Option.some.inj (congrArg Prod.snd (hp.symm.trans h))
        subst h2
        rw [← h1]
        exact ⟨fun hnd => hnd, fun hnd => floodPass_count_le_one _ _ hnd,
          fun hb => ⟨floodPass_true_zero _ _ hb, floodPass_true_mono _ _ hb⟩,
          fun hemit => floodPass_emitted_true _ _ hemit⟩
      · have hfl : s.routes_computed = true := by
          cases hx : s.routes_computed with
          | false =>
            exact absurd (⟨by omega, hx⟩ :
              BROADCAST_INTERVAL ≤ c ∧ s.routes_computed = false) hcf
          | true => rfl
        have hp := run_one_tick_computed selfId c hfl (by omega)
        have h1 : ([] : List LSOut) = ems := congrArg Prod.fst (hp.symm.trans h)
        have h2 : s = s1 := Option.some.inj (congrArg Prod.snd (hp.symm.trans h))
        subst h2
        rw [← h1]
        exact ⟨fun hnd => hnd, fun _ => by simp [countOut], fun hb => ⟨rfl, hb⟩,
          fun habs => absurd habs (by simp [countOut])⟩

theorem runLS_true_zero {selfId o : Int} (events : List LSEvent) (s : LSState)
    (hb : alookup s.broadcasted o = some true) :
    countOut (.flood o) (runLS selfId events s).1 = 0 := by
  induction events generalizing s with
  | nil => rfl
  | cons e rest ih =>
    cases hsp : stepEvent selfId e s with
    | mk ems os =>
      cases os with
      | none =>
        rw [runLS_cons_none rest hsp]
        exact stepEvent_none_no_flood hsp o
      | some s1 =>
        rw [runLS_cons_some rest hsp, countOut_append]
        obtain ⟨hz, hb1⟩ := (stepEvent_some_props hsp o).2.2.1 hb
        rw [hz, ih s1 hb1]

theorem runLS_flood_le_one {selfId o : Int} (events : List LSEvent)
    (s : LSState) (hnd : (akeys s.lsa_dict).Nodup) :
    countOut (.flood o) (runLS selfId events s).1 ≤ 1 := by
  induction events generalizing s with
  | nil => exact Nat.zero_le 1
  | cons e rest ih =>
    cases hsp : stepEvent selfId e s with
    | mk ems os =>
      cases os with
      | none =>
        rw [runLS_cons_none rest hsp, stepEvent_none_no_flood hsp o]
        exact Nat.zero_le 1
      | some s1 =>
        rw [runLS_cons_some rest hsp, countOut_append]
        obtain ⟨hndp, hle, _, hemit⟩ := stepEvent_some_props hsp o
        rcases Nat.eq_zero_or_pos (countOut (.flood o) ems) with hz | hpos
        · rw [hz]
          have := ih s1 (hndp hnd)
          omega
        · have hb1 := hemit hpos
          rw [runLS_true_zero rest s1 hb1]
          have := hle hnd
          omega

/-- C8: re-delivering an identical LSA for the same originator is
idempotent — the second `send` leaves the receiver's state (in particular
`lsa_dict`) exactly as after the first — and over any whole run a router
emits the flood action for a given originator at most once (once the
`broadcasted` flag is true it never re-floods). -/
theorem claim_C8_redeliver_noop_flood_once (selfId : Int) :
    (∀ (s : LSState) (o : Int) (lsa : List (Int × Int)) (s1 : LSState),
      stepEvent selfId (.recv o lsa) s = ([], some s1) →
      stepEvent selfId (.recv o lsa) s1 = ([], some s1)) ∧
    (∀ (events : List LSEvent) (s : LSState) (o : Int),
      (akeys s.lsa_dict).Nodup →
      countOut (.flood o) (runLS selfId events s).1 ≤ 1) := by
  constructor
  · intro s o lsa s1 h
    have h2 : ({ s with lsa_dict := aset o lsa s.lsa_dict } : LSState) = s1 :=
      Option.some.inj (congrArg Prod.snd h)
    rw [← h2]
    show ([], some { s with lsa_dict := aset o lsa (aset o lsa s.lsa_dict) }) =
      ([], some { s with lsa_dict := aset o lsa s.lsa_dict })
    rw [aset_idem]
  · intro events s o hnd
    exact runLS_flood_le_one events s hnd

/-- C8 witness: delivering the LSA of originator 5 twice then flooding over
two ticks: the second delivery returns the state unchanged, and the flood
action for originator 5 is emitted at most once. -/
theorem claim_C8_redeliver_noop_flood_once_witness :
    stepEvent 0 (.recv 5 [(0, 1)])
      ⟨[(0, [(1, 1)]), (5, [(0, 1)])], [(0, false)], false, false, []⟩ =
      ([], some ⟨[(0, [(1, 1)]), (5, [(0, 1)])], [(0, false)], false, false, []⟩) ∧
    countOut (.flood 5) (runLS 0 [.recv 5 [(0, 1)], .tick 0, .tick 1]
      ⟨[(0, [(1, 1)])], [(0, false)], false, false, []⟩).1 ≤ 1 := by
  have h := claim_C8_redeliver_noop_flood_once 0
  refine ⟨?_, h.2 [.recv 5 [(0, 1)], .tick 0, .tick 1]
    ⟨[(0, [(1, 1)])], [(0, false)], false, false, []⟩ 5 (by decide)⟩
  exact h.1 ⟨[(0, [(1, 1)])], [(0, false)], false, false, []⟩ 5 [(0, 1)]
    ⟨[(0, [(1, 1)]), (5, [(0, 1)])], [(0, false)], false, false, []⟩ rfl

end LS
